import Mathlib

/-!
Verification of the streaming-proxy core of the AIstudioProxyAPI repository.

The development shallowly embeds the Python sources `stream/interceptors.py`
and `stream/proxy_server.py`:

* Byte strings (`bytes`) and text strings (`str`) are both modelled as
  `List Char`; each element of a byte string is a character whose code point
  is the byte value.  The sources never rely on a distinction that this
  conflation would blur (UTF-8 multi-byte sequences are never split by the
  operations under study).
* Python's arbitrary-precision integers are `Int`/`Nat`; negative slice
  indices and slice clamping are modelled explicitly (`pyIdx`, `pySlice`).
* Timestamps (`time.time()` floats) are modelled as integer milliseconds, so
  the source constants `2.0` seconds and `0.5` seconds become `2000` and
  `500`.  All comparisons in the source are against multiples of these
  constants, so the integer grid exhibits exactly the behaviours of the real
  code.
* JSON values are the inductive `JVal`; arrays and objects carry explicit
  cons/nil spines so that every recursion in the file is structural and every
  definition evaluates inside the kernel.
* Fallible Python code (uncaught exceptions) is modelled with `Option`:
  `none` means the exception propagates out of the modelled function.
-/

/-! ## Basic character and substring helpers -/

/-- The two-character sequence `"\r\n"` used by HTTP framing. -/
def crlf : List Char := ['\r', '\n']

/-- The terminal chunk marker `b"0\r\n\r\n"` searched for by `_decode_chunked`. -/
def zeroTerm : List Char := ['0', '\r', '\n', '\r', '\n']

/-- The end-of-headers marker `b"\r\n\r\n"`. -/
def crlf2 : List Char := ['\r', '\n', '\r', '\n']

/-- Python `haystack.find(pat)` (for nonempty `pat`): index of the first
occurrence of `pat` as a contiguous sublist, `none` when absent. -/
def subFind (pat : List Char) : List Char → Option Nat
  | [] => if pat.isPrefixOf ([] : List Char) then some 0 else none
  | c :: cs => if pat.isPrefixOf (c :: cs) then some 0 else (subFind pat cs).map Nat.succ

/-- Python `pat in haystack` for strings/bytes. -/
def containsSub (pat s : List Char) : Bool := (subFind pat s).isSome

/-- Clamp a Python slice index to an actual list position: negative indices
count from the end, and everything is clamped into `[0, L]`. -/
def pyIdx (L : Nat) (i : Int) : Nat :=
  if i < 0 then L - min L (-i).toNat else min i.toNat L

/-- Python `l[a:b]` with full negative-index and clamping semantics. -/
def pySlice (l : List Char) (a b : Int) : List Char :=
  (l.take (pyIdx l.length b)).drop (pyIdx l.length a)

/-- Python `l[a:]`. -/
def pyDrop (l : List Char) (a : Int) : List Char :=
  l.drop (pyIdx l.length a)

/-! ## Python `int(s, 16)`

`_decode_chunked` parses each chunk-size line with `int(hex_length, 16)`.
Python strips ASCII whitespace, accepts an optional sign, an optional
`0x`/`0X` prefix, and hexadecimal digits with single underscores between
digits (after a prefix a single leading underscore is also allowed);
anything else raises `ValueError`, modelled by `none`. -/

/-- ASCII whitespace stripped by Python `int()` on bytes. -/
def isPySpace (c : Char) : Bool :=
  c = ' ' ∨ c = '\t' ∨ c = '\n' ∨ c = '\r' ∨ c = '\x0b' ∨ c = '\x0c'

/-- Strip `isPySpace` characters from both ends. -/
def stripWs (l : List Char) : List Char :=
  ((l.dropWhile isPySpace).reverse.dropWhile isPySpace).reverse

def isHexDig (c : Char) : Bool :=
  ('0' ≤ c ∧ c ≤ '9') ∨ ('a' ≤ c ∧ c ≤ 'f') ∨ ('A' ≤ c ∧ c ≤ 'F')

def hexVal (c : Char) : Nat :=
  if '0' ≤ c ∧ c ≤ '9' then c.toNat - '0'.toNat
  else if 'a' ≤ c ∧ c ≤ 'f' then c.toNat - 'a'.toNat + 10
  else c.toNat - 'A'.toNat + 10

/-- Digits of a hexadecimal numeral after the first digit; a single
underscore is allowed between digits. -/
def hexDigitsAux : Nat → List Char → Option Nat
  | acc, [] => some acc
  | acc, c :: rest =>
      if c = '_' then
        match rest with
        | c2 :: r => if isHexDig c2 then hexDigitsAux (acc * 16 + hexVal c2) r else none
        | [] => none
      else if isHexDig c then hexDigitsAux (acc * 16 + hexVal c) rest else none

/-- The digit part of a hexadecimal numeral; `allowLeadU` is true directly
after a `0x` prefix, where Python tolerates one leading underscore. -/
def parseHexBody : Bool → List Char → Option Nat
  | _, [] => none
  | allowLeadU, c :: rest =>
      if c = '_' then
        if allowLeadU then
          match rest with
          | c2 :: r => if isHexDig c2 then hexDigitsAux (hexVal c2) r else none
          | [] => none
        else none
      else if isHexDig c then hexDigitsAux (hexVal c) rest else none

/-- A hexadecimal numeral with optional `0x`/`0X` prefix. -/
def parseHexNoSign (l : List Char) : Option Nat :=
  match l with
  | c0 :: c1 :: r =>
      if c0 = '0' ∧ (c1 = 'x' ∨ c1 = 'X') then parseHexBody true r
      else parseHexBody false l
  | _ => parseHexBody false l

/-- Python `int(s, 16)`; `none` models a raised `ValueError`. -/
def parsePyHex (s : List Char) : Option Int :=
  match stripWs s with
  | [] => none
  | c :: r =>
      if c = '+' then (parseHexNoSign r).map (fun n => (n : Int))
      else if c = '-' then (parseHexNoSign r).map (fun n => -(n : Int))
      else (parseHexNoSign (c :: r)).map (fun n => (n : Int))

/-! ## `HttpInterceptor._decode_chunked`

One iteration of the `while True:` loop of `_decode_chunked`
(`stream/interceptors.py`).  `done out fin` models `return (out, fin)`
(a `break` returns the data accumulated so far with `False`); `cont`
models falling through to the next iteration with the reassigned
`response_body` and the extended `chunked_data`. -/

inductive DecStep where
  | done : List Char → Bool → DecStep
  | cont : List Char → List Char → DecStep
deriving DecidableEq, Repr

def decodeStep (buf acc : List Char) : DecStep :=
  match subFind crlf buf with
  | none => .done acc false
  | some idx =>
    match parsePyHex (buf.take idx) with
    | none => .done acc false
    | some len =>
      if len = 0 ∧ (subFind zeroTerm buf).isSome then .done acc true
      else if len + 2 > (buf.length : Int) then .done acc false
      else if (idx : Int) + 2 + len + 2 > (buf.length : Int) then
        .done (acc ++ pySlice buf ((idx : Int) + 2) ((idx : Int) + 2 + len)) false
      else
        .cont (pyDrop buf ((idx : Int) + 2 + len + 2))
          (acc ++ pySlice buf ((idx : Int) + 2) ((idx : Int) + 2 + len))

/-- Iterate `decodeStep` with fuel; `none` means the loop has not finished
within `fuel` iterations. -/
def decodeRun : Nat → List Char → List Char → Option (List Char × Bool)
  | 0, _, _ => none
  | fuel + 1, buf, acc =>
    match decodeStep buf acc with
    | .done out fin => some (out, fin)
    | .cont buf2 acc2 => decodeRun fuel buf2 acc2

/-- `HttpInterceptor._decode_chunked`.  The fuel `|body| + 1` is sufficient
for every input on which the Python loop terminates, since every productive
iteration strictly shortens the buffer; `none` therefore means the Python
loop never terminates on this input. -/
def decodeChunked (body : List Char) : Option (List Char × Bool) :=
  decodeRun (body.length + 1) body []

/-- A size line whose parsed value is negative enough makes the final slice
`response_body[idx+2+length+2:]` reproduce the whole buffer, so the loop
repeats the very same iteration forever. -/
def loopInput : List Char := ['-', '9', '9', '\r', '\n']

lemma decodeRun_none_of_selfloop (buf acc : List Char)
    (h : decodeStep buf acc = .cont buf acc) :
    ∀ fuel, decodeRun fuel buf acc = none := by
  intro fuel
  induction fuel with
  | zero => rfl
  | succ n ih => simp only [decodeRun, h, ih]

/-- C10: the claim states that `_decode_chunked` terminates on every byte
string.  It does not: on the five-byte input `b"-99\r\n"` the size line
parses (via Python `int(_, 16)`) to `-153`; the guards `length + 2 >
len(response_body)` and `idx + 2 + length + 2 > len(response_body)` are
both false for this negative length, the data slice is empty, and the
final reassignment `response_body[idx+2+length+2:]` has a negative start
index that clamps to `0`, reproducing the entire buffer.  The loop body
therefore repeats identically forever.  The first conjunct exhibits the
self-loop of the loop body, the second shows that no amount of fuel
finishes the loop, and the third evaluates the modelled function at the
failing input. -/
theorem decode_chunked_nonterminating :
    decodeStep loopInput [] = .cont loopInput []
    ∧ (∀ fuel, decodeRun fuel loopInput [] = none)
    ∧ decodeChunked loopInput = none := by
  refine ⟨by decide, decodeRun_none_of_selfloop _ _ (by decide), by decide⟩

/-- `subFind` only succeeds at genuine occurrences: the pattern fits. -/
lemma subFind_some_le (pat l : List Char) (i : Nat)
    (h : subFind pat l = some i) : i + pat.length ≤ l.length := by
  induction l generalizing i with
  | nil =>
    simp only [subFind] at h
    split at h
    · rename_i hp
      cases h
      simpa using List.IsPrefix.length_le (List.isPrefixOf_iff_prefix.mp hp)
    · cases h
  | cons c cs ih =>
    simp only [subFind] at h
    split at h
    · rename_i hp
      cases h
      simpa using List.IsPrefix.length_le (List.isPrefixOf_iff_prefix.mp hp)
    · rcases Option.map_eq_some'.mp h with ⟨j, hj, rfl⟩
      have := ih j hj
      simpa [Nat.succ_add] using Nat.add_le_add_right (Nat.le_of_succ_le_succ (Nat.succ_le_succ this)) 0

/-- C7: `_decode_chunked` is total (the model returns a value by
construction, mirroring that the Python body catches the only raising
operation), and the two non-fatal stop conditions hold: (a) if the text
before the first CRLF is not a well-formed hexadecimal integer, the loop
stops at once and returns the data decoded so far with `isFinal = false`;
(b) if the successfully parsed chunk length exceeds the bytes available
after the size line, the loop stops and returns a partial result — the data
decoded so far, possibly extended by the truncated chunk's available bytes —
with `isFinal = false`. -/
theorem decode_chunked_stops_nonfatally (buf acc : List Char) (idx : Nat)
    (hfind : subFind crlf buf = some idx) :
    (parsePyHex (buf.take idx) = none → decodeStep buf acc = .done acc false)
    ∧ (∀ len : Int, parsePyHex (buf.take idx) = some len →
        len > (buf.length : Int) - (idx : Int) - 2 →
        ∃ r, decodeStep buf acc = .done r false ∧ acc <+: r) := by
  constructor
  · intro hparse
    simp only [decodeStep, hfind, hparse]
  · intro len hparse hbig
    have hfit : idx + 2 ≤ buf.length := by
      have := subFind_some_le crlf buf idx hfind
      simpa [crlf] using this
    have hlenpos : 0 < len := by
      have : (0 : Int) ≤ (buf.length : Int) - (idx : Int) - 2 := by
        have : ((idx : Int) + 2) ≤ (buf.length : Int) := by exact_mod_cast hfit
        omega
      omega
    simp only [decodeStep, hfind, hparse]
    by_cases hover : len + 2 > (buf.length : Int)
    · refine ⟨acc, ?_, List.prefix_refl acc⟩
      have hne : ¬(len = 0 ∧ (subFind zeroTerm buf).isSome) := by
        rintro ⟨h0, _⟩; omega
      simp only [hne, if_false, hover, if_true]
    · have hover2 : (idx : Int) + 2 + len + 2 > (buf.length : Int) := by omega
      have hne : ¬(len = 0 ∧ (subFind zeroTerm buf).isSome) := by
        rintro ⟨h0, _⟩; omega
      refine ⟨acc ++ pySlice buf ((idx : Int) + 2) ((idx : Int) + 2 + len), ?_, List.prefix_append _ _⟩
      simp only [hne, if_false, hover, if_false, hover2, if_true]

/-- Witness for `decode_chunked_stops_nonfatally`: the size line `b"zz"` is
malformed so decoding stops with what was decoded so far, and in
`b"5\r\nab"` the declared length 5 exceeds the 2 available bytes. -/
theorem decode_chunked_stops_nonfatally_witness :
    (decodeStep ['z', 'z', '\r', '\n', 'q'] ['d'] = .done ['d'] false)
    ∧ ∃ r, decodeStep ['5', '\r', '\n', 'a', 'b'] [] = .done r false ∧ [] <+: r := by
  constructor
  · exact (decode_chunked_stops_nonfatally ['z', 'z', '\r', '\n', 'q'] ['d'] 2 (by decide)).1
      (by decide)
  · exact (decode_chunked_stops_nonfatally ['5', '\r', '\n', 'a', 'b'] [] 1 (by decide)).2
      5 (by decide) (by decide)

/-! ## A reference encoder for chunked transfer encoding

Used to state the round-trip property C6: a well-formed chunked stream is a
sequence of hex-size/CRLF/data/CRLF groups followed by the terminal
`0\r\n\r\n`. -/

/-- One hexadecimal digit character (lowercase). -/
def hexChar (k : Nat) : Char :=
  if k < 10 then Char.ofNat ('0'.toNat + k) else Char.ofNat ('a'.toNat + k - 10)

/-- Hexadecimal digits of `n`, most significant first, prepended to `acc`;
`fuel ≥ n` suffices. -/
def toHexAux : Nat → Nat → List Char → List Char
  | 0, _, acc => acc
  | _ + 1, 0, acc => acc
  | fuel + 1, n + 1, acc => toHexAux fuel ((n + 1) / 16) (hexChar ((n + 1) % 16) :: acc)

/-- The hexadecimal numeral of `n` (as Python's `"%x" % n`). -/
def toHex (n : Nat) : List Char := if n = 0 then ['0'] else toHexAux n n []

/-- One encoded chunk group: size line, CRLF, data, CRLF. -/
def encodeChunk (d : List Char) : List Char := toHex d.length ++ crlf ++ d ++ crlf

/-- A complete well-formed chunked body: the encoded chunks followed by the
terminal marker. -/
def encodeChunked (ds : List (List Char)) : List Char :=
  (ds.map encodeChunk).flatten ++ zeroTerm

/-- Folding hexadecimal digits into a value, as the parser does. -/
def hfold (v : Nat) (l : List Char) : Nat :=
  l.foldl (fun a c => a * 16 + hexVal c) v

/-- The value obtained by re-folding the digits of `n` on top of `v`. -/
def gval : Nat → Nat → Nat
  | 0, v => v
  | n + 1, v => gval ((n + 1) / 16) v * 16 + (n + 1) % 16
decreasing_by exact Nat.div_lt_self (Nat.succ_pos n) (by omega)

lemma hfold_nil (v : Nat) : hfold v [] = v := rfl

lemma hfold_cons (v : Nat) (c : Char) (l : List Char) :
    hfold v (c :: l) = hfold (v * 16 + hexVal c) l := rfl

lemma gval_zero (v : Nat) : gval 0 v = v := by simp [gval]

lemma gval_pos (n v : Nat) (h : 0 < n) :
    gval n v = gval (n / 16) v * 16 + n % 16 := by
  cases n with
  | zero => omega
  | succ m => rw [gval]

lemma gval_eval (n : Nat) : gval n 0 = n := by
  induction n using Nat.strong_induction_on with
  | _ n ih =>
    rcases Nat.eq_zero_or_pos n with h | h
    · simp [h, gval_zero]
    · rw [gval_pos n 0 h, ih (n / 16) (Nat.div_lt_self h (by omega))]
      omega

lemma hexVal_hexChar (k : Nat) (h : k < 16) : hexVal (hexChar k) = k := by
  interval_cases k <;> decide

lemma isHexDig_hexChar (k : Nat) (h : k < 16) : isHexDig (hexChar k) = true := by
  interval_cases k <;> decide

lemma toHexAux_zero (fuel : Nat) (acc : List Char) : toHexAux fuel 0 acc = acc := by
  cases fuel <;> rfl

lemma toHexAux_hexdig (fuel : Nat) :
    ∀ n acc, (∀ c ∈ acc, isHexDig c = true) →
      ∀ c ∈ toHexAux fuel n acc, isHexDig c = true := by
  induction fuel with
  | zero => intro n acc hacc; simpa [toHexAux] using hacc
  | succ f ih =>
    intro n acc hacc
    cases n with
    | zero => simpa [toHexAux] using hacc
    | succ m =>
      simp only [toHexAux]
      refine ih _ _ ?_
      intro c hc
      rcases List.mem_cons.mp hc with rfl | hc
      · exact isHexDig_hexChar _ (Nat.mod_lt _ (by omega))
      · exact hacc c hc

lemma toHexAux_len (fuel : Nat) :
    ∀ n acc, acc.length ≤ (toHexAux fuel n acc).length := by
  induction fuel with
  | zero => intro n acc; simp [toHexAux]
  | succ f ih =>
    intro n acc
    cases n with
    | zero => simp [toHexAux]
    | succ m =>
      simp only [toHexAux]
      calc acc.length ≤ (hexChar ((m + 1) % 16) :: acc).length := by simp
        _ ≤ _ := ih _ _

lemma hfold_toHexAux (fuel : Nat) :
    ∀ n acc v, 0 < n → n ≤ fuel →
      hfold v (toHexAux fuel n acc) = hfold (gval n v) acc := by
  induction fuel with
  | zero => intro n acc v h1 h2; omega
  | succ f ih =>
    intro n acc v h1 h2
    cases n with
    | zero => omega
    | succ m =>
      simp only [toHexAux]
      rcases Nat.eq_zero_or_pos ((m + 1) / 16) with h16 | h16
      · rw [h16, toHexAux_zero, hfold_cons, hexVal_hexChar _ (Nat.mod_lt _ (by omega)),
          gval_pos _ _ (Nat.succ_pos m), h16, gval_zero]
      · rw [ih ((m + 1) / 16) _ v h16 (by omega), hfold_cons,
          hexVal_hexChar _ (Nat.mod_lt _ (by omega)), gval_pos _ _ (Nat.succ_pos m)]

lemma toHex_hexdig (n : Nat) : ∀ c ∈ toHex n, isHexDig c = true := by
  unfold toHex
  split
  · intro c hc; simp at hc; subst hc; decide
  · exact toHexAux_hexdig n n [] (by simp)

lemma toHex_ne_nil (n : Nat) : toHex n ≠ [] := by
  unfold toHex
  split
  · simp
  · rename_i h
    cases n with
    | zero => omega
    | succ m =>
      have := toHexAux_len m ((m + 1) / 16) [hexChar ((m + 1) % 16)]
      intro hnil
      rw [show toHexAux (m + 1) (m + 1) [] =
        toHexAux m ((m + 1) / 16) [hexChar ((m + 1) % 16)] from rfl] at hnil
      rw [hnil] at this
      simp at this

lemma hfold_toHex (n : Nat) : hfold 0 (toHex n) = n := by
  unfold toHex
  split
  · rename_i h; subst h; decide
  · rename_i h
    rw [hfold_toHexAux n n [] 0 (by omega) le_rfl, hfold_nil, gval_eval]

/-- Characters accepted as hexadecimal digits are none of the special
characters the surrounding parsers test for. -/
lemma isHexDig_facts (c : Char) (h : isHexDig c = true) :
    isPySpace c = false ∧ c ≠ '+' ∧ c ≠ '-' ∧ c ≠ '\r' ∧ c ≠ '\n'
      ∧ c ≠ '_' ∧ c ≠ 'x' ∧ c ≠ 'X' := by
  refine ⟨?_, ?_, ?_, ?_, ?_, ?_, ?_, ?_⟩
  · by_contra hsp
    have hsp' : isPySpace c = true := by
      cases hps : isPySpace c
      · exact absurd hps hsp
      · rfl
    simp only [isPySpace, decide_eq_true_eq] at hsp'
    rcases hsp' with rfl | rfl | rfl | rfl | rfl | rfl <;> simp [isHexDig] at h
  all_goals (rintro rfl; simp [isHexDig] at h)

lemma stripWs_id (l : List Char) (h : ∀ c ∈ l, isPySpace c = false) :
    stripWs l = l := by
  have hdw : ∀ m : List Char, (∀ c ∈ m, isPySpace c = false) →
      m.dropWhile isPySpace = m := by
    intro m hm
    cases m with
    | nil => rfl
    | cons c cs => rw [List.dropWhile_cons_of_neg (by simp [hm c (by simp)])]
  rw [stripWs, hdw l h, hdw l.reverse (by intro c hc; exact h c (List.mem_reverse.mp hc)),
    List.reverse_reverse]

lemma hexDigitsAux_digits (l : List Char) :
    ∀ v, (∀ c ∈ l, isHexDig c = true) → hexDigitsAux v l = some (hfold v l) := by
  induction l with
  | nil => intro v _; rfl
  | cons c rest ih =>
    intro v hl
    have hc : isHexDig c = true := hl c (by simp)
    have hcu : c ≠ '_' := (isHexDig_facts c hc).2.2.2.2.2.1
    cases rest with
    | nil => simp only [hexDigitsAux, if_neg hcu, if_pos hc, hfold_cons]; rfl
    | cons c2 r =>
      simp only [hexDigitsAux, if_neg hcu, if_pos hc, hfold_cons]
      exact ih _ (fun x hx => hl x (by simp [hx]))

lemma parseHexBody_digits (l : List Char) (hne : l ≠ [])
    (h : ∀ c ∈ l, isHexDig c = true) : parseHexBody false l = some (hfold 0 l) := by
  cases l with
  | nil => exact absurd rfl hne
  | cons c rest =>
    have hc : isHexDig c = true := h c (by simp)
    have hcu : c ≠ '_' := (isHexDig_facts c hc).2.2.2.2.2.1
    have hrw : parseHexBody false (c :: rest) = hexDigitsAux (hexVal c) rest := by
      cases rest with
      | nil => simp only [parseHexBody, if_neg hcu, if_pos hc]
      | cons c2 r => simp only [parseHexBody, if_neg hcu, if_pos hc]
    rw [hrw, hexDigitsAux_digits rest (hexVal c) (fun x hx => h x (by simp [hx])),
      hfold_cons]
    simp [hfold]

lemma parseHexNoSign_digits (l : List Char)
    (h : ∀ c ∈ l, isHexDig c = true) : parseHexNoSign l = parseHexBody false l := by
  cases l with
  | nil => rfl
  | cons c0 rest =>
    cases rest with
    | nil => rfl
    | cons c1 r =>
      have h1 : isHexDig c1 = true := h c1 (by simp)
      have hx : c1 ≠ 'x' := (isHexDig_facts c1 h1).2.2.2.2.2.2.1
      have hX : c1 ≠ 'X' := (isHexDig_facts c1 h1).2.2.2.2.2.2.2
      have hcond : ¬(c0 = '0' ∧ (c1 = 'x' ∨ c1 = 'X')) := by
        rintro ⟨-, h2 | h2⟩
        · exact hx h2
        · exact hX h2
      simp only [parseHexNoSign, if_neg hcond]

lemma parse_toHex (n : Nat) : parsePyHex (toHex n) = some (n : Int) := by
  have hdig := toHex_hexdig n
  have hne := toHex_ne_nil n
  obtain ⟨c, r, hcr⟩ := List.exists_cons_of_ne_nil hne
  have hstrip : stripWs (toHex n) = toHex n :=
    stripWs_id _ (fun x hx => (isHexDig_facts x (hdig x hx)).1)
  have hc : isHexDig c = true := hdig c (by rw [hcr]; simp)
  have hfacts := isHexDig_facts c hc
  rw [parsePyHex, hstrip, hcr]
  simp only [if_neg hfacts.2.1, if_neg hfacts.2.2.1]
  rw [← hcr, parseHexNoSign_digits _ hdig, parseHexBody_digits _ hne hdig, hfold_toHex]
  rfl

/-! ## Occurrence lemmas for `subFind` -/

lemma subFind_at_zero (pat s : List Char) (hne : pat ≠ [])
    (hp : pat <+: s) : subFind pat s = some 0 := by
  cases s with
  | nil =>
    rw [List.prefix_nil] at hp
    exact absurd hp hne
  | cons c cs =>
    rw [subFind, if_pos (List.isPrefixOf_iff_prefix.mpr hp)]

lemma subFind_crlf_append (a rest : List Char) (ha : ∀ c ∈ a, c ≠ '\r') :
    subFind crlf (a ++ '\r' :: '\n' :: rest) = some a.length := by
  induction a with
  | nil =>
    exact subFind_at_zero _ _ (by simp [crlf]) ⟨rest, rfl⟩
  | cons x xs ih =>
    have hx : x ≠ '\r' := ha x (by simp)
    rw [List.cons_append, subFind, if_neg ?_, ih (fun c hc => ha c (by simp [hc]))]
    · rfl
    · intro hpre
      have := List.isPrefixOf_iff_prefix.mp hpre
      rcases this with ⟨t, ht⟩
      simp [crlf] at ht
      exact hx ht.1.symm

lemma subFind_crlf_none (l : List Char) (h : ∀ c ∈ l, c ≠ '\r') :
    subFind crlf l = none := by
  induction l with
  | nil => rfl
  | cons c cs ih =>
    rw [subFind, if_neg ?_, ih (fun x hx => h x (by simp [hx]))]
    · rfl
    · intro hpre
      rcases List.isPrefixOf_iff_prefix.mp hpre with ⟨t, ht⟩
      simp [crlf] at ht
      exact h c (by simp) ht.1.symm

lemma subFind_crlf_snoc (l : List Char) (h : ∀ c ∈ l, c ≠ '\r') :
    subFind crlf (l ++ ['\r']) = none := by
  induction l with
  | nil => rfl
  | cons c cs ih =>
    rw [List.cons_append, subFind, if_neg ?_, ih (fun x hx => h x (by simp [hx]))]
    · rfl
    · intro hpre
      rcases List.isPrefixOf_iff_prefix.mp hpre with ⟨t, ht⟩
      simp [crlf] at ht
      exact h c (by simp) ht.1.symm

/-! ## Slice arithmetic for nonnegative indices -/

lemma drop_min (l : List Char) (a : Nat) : l.drop (min a l.length) = l.drop a := by
  rcases le_or_lt a l.length with h | h
  · rw [Nat.min_eq_left h]
  · rw [Nat.min_eq_right (le_of_lt h), List.drop_length, List.drop_eq_nil_of_le (le_of_lt h)]

lemma pySlice_ofNat (l : List Char) (a b : Nat) :
    pySlice l (a : Int) (b : Int) = (l.drop a).take (b - a) := by
  have hIdx : ∀ n : Nat, pyIdx l.length (n : Int) = min n l.length := by
    intro n
    simp [pyIdx]
  rw [pySlice, hIdx, hIdx, List.drop_take, drop_min]
  rw [List.take_eq_take]
  simp [List.length_drop]
  omega

lemma pyDrop_ofNat (l : List Char) (a : Nat) :
    pyDrop l (a : Int) = l.drop a := by
  rw [pyDrop]
  have : pyIdx l.length (a : Int) = min a l.length := by simp [pyIdx]
  rw [this, drop_min]

/-! ## Decoding whole chunk groups and the terminal marker -/

lemma encodeChunk_expand (d rest : List Char) :
    encodeChunk d ++ rest
      = toHex d.length ++ '\r' :: '\n' :: (d ++ '\r' :: '\n' :: rest) := by
  simp [encodeChunk, crlf]

lemma decodeStep_chunk (d rest acc : List Char) (hd : d ≠ []) :
    decodeStep (encodeChunk d ++ rest) acc = .cont rest (acc ++ d) := by
  have hacr : ∀ c ∈ toHex d.length, c ≠ '\r' :=
    fun c hc => (isHexDig_facts c (toHex_hexdig _ c hc)).2.2.2.1
  rw [encodeChunk_expand]
  set a := toHex d.length with ha_def
  set w : List Char := d ++ '\r' :: '\n' :: rest with hw_def
  have hB1 : a ++ '\r' :: '\n' :: w = (a ++ ['\r', '\n']) ++ w := by simp
  have hB2 : a ++ '\r' :: '\n' :: w = (a ++ ['\r', '\n'] ++ d ++ ['\r', '\n']) ++ rest := by
    simp [hw_def]
  have hdpos : 0 < d.length := List.length_pos.mpr hd
  have hlen : (a ++ '\r' :: '\n' :: w).length = a.length + 2 + d.length + 2 + rest.length := by
    simp [hw_def]
    omega
  have hfind : subFind crlf (a ++ '\r' :: '\n' :: w) = some a.length :=
    subFind_crlf_append a w hacr
  have htake : (a ++ '\r' :: '\n' :: w).take a.length = a := by
    rw [hB1, List.take_append_eq_append_take, Nat.sub_eq_zero_of_le (by simp),
      List.take_zero, List.append_nil, List.take_left]
  have hparse : parsePyHex ((a ++ '\r' :: '\n' :: w).take a.length)
      = some (d.length : Int) := by
    rw [htake, ha_def, parse_toHex]
  have hno0 : ¬((d.length : Int) = 0 ∧ (subFind zeroTerm (a ++ '\r' :: '\n' :: w)).isSome) := by
    rintro ⟨h0, -⟩
    rw [Int.natCast_eq_zero] at h0
    omega
  have hg1 : ¬((d.length : Int) + 2 > ((a ++ '\r' :: '\n' :: w).length : Int)) := by
    rw [hlen]
    push_cast
    omega
  have hg2 : ¬((a.length : Int) + 2 + (d.length : Int) + 2
      > ((a ++ '\r' :: '\n' :: w).length : Int)) := by
    rw [hlen]
    push_cast
    omega
  have hslice : pySlice (a ++ '\r' :: '\n' :: w) ((a.length : Int) + 2)
      ((a.length : Int) + 2 + (d.length : Int)) = d := by
    have h1 : ((a.length : Int) + 2) = ((a.length + 2 : Nat) : Int) := by push_cast; ring
    have h2 : (((a.length + 2 : Nat) : Int) + (d.length : Int))
        = ((a.length + 2 + d.length : Nat) : Int) := by push_cast; ring
    rw [h1, h2, pySlice_ofNat]
    have hdrop : (a ++ '\r' :: '\n' :: w).drop (a.length + 2) = w := by
      rw [hB1]
      have h3 : (a ++ ['\r', '\n']).length = a.length + 2 := by simp
      rw [← h3, List.drop_left]
    rw [hdrop]
    have h4 : a.length + 2 + d.length - (a.length + 2) = d.length := by omega
    rw [h4, hw_def, List.take_left]
  have hfin : pyDrop (a ++ '\r' :: '\n' :: w) ((a.length : Int) + 2 + (d.length : Int) + 2)
      = rest := by
    have h1 : ((a.length : Int) + 2 + (d.length : Int) + 2)
        = ((a.length + 2 + d.length + 2 : Nat) : Int) := by push_cast; ring
    rw [h1, pyDrop_ofNat, hB2]
    have h2 : (a ++ ['\r', '\n'] ++ d ++ ['\r', '\n']).length = a.length + 2 + d.length + 2 := by
      simp
      omega
    rw [← h2, List.drop_left]
  simp only [decodeStep, hfind, hparse, if_neg hno0, if_neg hg1, if_neg hg2, hslice, hfin]

lemma decodeStep_zeroTerm (rest acc : List Char) :
    decodeStep (zeroTerm ++ rest) acc = .done acc true := by
  have hfind : subFind crlf (zeroTerm ++ rest) = some 1 := by
    have h : zeroTerm ++ rest = ['0'] ++ '\r' :: '\n' :: ('\r' :: '\n' :: rest) := by
      simp [zeroTerm]
    rw [h]
    simpa using subFind_crlf_append ['0'] _ (by intro c hc; simp at hc; subst hc; decide)
  have htake : (zeroTerm ++ rest).take 1 = ['0'] := by
    simp [zeroTerm]
  have hparse : parsePyHex ((zeroTerm ++ rest).take 1) = some 0 := by
    rw [htake]
    decide
  have hterm : (subFind zeroTerm (zeroTerm ++ rest)).isSome = true := by
    rw [subFind_at_zero zeroTerm _ (by decide) ⟨rest, rfl⟩]
    rfl
  simp only [decodeStep, hfind, hparse]
  simp [hterm]

lemma encodeChunk_as_cons (d : List Char) :
    encodeChunk d = toHex d.length ++ '\r' :: '\n' :: (d ++ ['\r', '\n']) := by
  simp [encodeChunk, crlf]

lemma encodeChunk_len (d : List Char) :
    (encodeChunk d).length = (toHex d.length).length + d.length + 4 := by
  simp [encodeChunk, crlf]
  omega

/-- Decoding a strict prefix of a single encoded chunk group stops without a
final marker, having recovered a prefix of the chunk data. -/
lemma decodeStep_of_enc_strict (d p acc : List Char) (hd : d ≠ [])
    (hpre : p <+: encodeChunk d) (hlt : p.length < (encodeChunk d).length) :
    ∃ q, decodeStep p acc = .done (acc ++ q) false ∧ q <+: d := by
  set a := toHex d.length with ha_def
  have hadig : ∀ c ∈ a, isHexDig c = true := toHex_hexdig d.length
  have hacr : ∀ c ∈ a, c ≠ '\r' := fun c hc => (isHexDig_facts c (hadig c hc)).2.2.2.1
  have hdpos : 0 < d.length := List.length_pos.mpr hd
  have hpeq : p = (encodeChunk d).take p.length := List.prefix_iff_eq_take.mp hpre
  have hexp : encodeChunk d = a ++ '\r' :: '\n' :: (d ++ ['\r', '\n']) :=
    encodeChunk_as_cons d
  have hklt : p.length < a.length + d.length + 4 := by
    have h0 : (encodeChunk d).length = a.length + d.length + 4 := encodeChunk_len d
    omega
  rcases le_or_lt p.length a.length with hk1 | hk1
  · -- cut inside the hex size line
    have hp : p = a.take p.length := by
      conv_lhs => rw [hpeq]
      rw [hexp, List.take_append_eq_append_take,
        Nat.sub_eq_zero_of_le hk1, List.take_zero, List.append_nil]
    have hnone : subFind crlf p = none := by
      rw [hp]
      exact subFind_crlf_none _ (fun c hc => hacr c (List.mem_of_mem_take hc))
    refine ⟨[], ?_, by simp⟩
    simp only [decodeStep, hnone, List.append_nil]
  · rcases eq_or_lt_of_le (Nat.succ_le_of_lt hk1) with hk2 | hk2
    · -- cut right after the CR of the size line
      have hp : p = a ++ ['\r'] := by
        rw [hpeq, hexp, List.take_append_eq_append_take,
          List.take_of_length_le (by omega), ← hk2]
        have h1 : a.length + 1 - a.length = 1 := by omega
        rw [h1]
        rfl
      have hnone : subFind crlf p = none := by
        rw [hp]
        exact subFind_crlf_snoc a hacr
      refine ⟨[], ?_, by simp⟩
      simp only [decodeStep, hnone, List.append_nil]
    · -- cut after the size-line CRLF
      have hj : a.length + 2 ≤ p.length := hk2
      set e := (d ++ ['\r', '\n']).take (p.length - a.length - 2) with he_def
      have hp : p = a ++ '\r' :: '\n' :: e := by
        rw [hpeq, hexp, List.take_append_eq_append_take,
          List.take_of_length_le (by omega)]
        have h1 : p.length - a.length = (p.length - a.length - 2) + 2 := by omega
        rw [h1]
        rfl
      have helen : e.length = p.length - a.length - 2 := by
        rw [he_def, List.length_take]
        simp
        omega
      have hplen2 : p.length = a.length + 2 + e.length := by
        rw [helen]
        omega
      have hfind : subFind crlf p = some a.length := by
        rw [hp]
        exact subFind_crlf_append a _ hacr
      have htk : p.take a.length = a := by
        rw [hp]
        have h1 : a = (a ++ '\r' :: '\n' :: e).take a.length := by
          rw [List.take_append_eq_append_take, Nat.sub_self, List.take_zero,
            List.append_nil, List.take_of_length_le le_rfl]
        exact h1.symm
      have hparse : parsePyHex (p.take a.length) = some (d.length : Int) := by
        rw [htk, ha_def, parse_toHex]
      have hno0 : ¬((d.length : Int) = 0 ∧ (subFind zeroTerm p).isSome) := by
        rintro ⟨h0, -⟩
        rw [Int.natCast_eq_zero] at h0
        omega
      by_cases hg1 : (d.length : Int) + 2 > (p.length : Int)
      · refine ⟨[], ?_, by simp⟩
        simp only [decodeStep, hfind, hparse, if_neg hno0, if_pos hg1, List.append_nil]
      · have hg2 : (a.length : Int) + 2 + (d.length : Int) + 2 > (p.length : Int) := by
          have : p.length = a.length + 2 + e.length := hplen2
          have he2 : e.length < d.length + 2 := by
            rw [helen]
            omega
          push_cast [this]
          omega
        have hslice : pySlice p ((a.length : Int) + 2) ((a.length : Int) + 2 + (d.length : Int))
            = e.take d.length := by
          have h1 : ((a.length : Int) + 2) = ((a.length + 2 : Nat) : Int) := by
            push_cast; ring
          have h2 : (((a.length + 2 : Nat) : Int) + (d.length : Int))
              = ((a.length + 2 + d.length : Nat) : Int) := by
            push_cast; ring
          rw [h1, h2, pySlice_ofNat]
          have hdrop : p.drop (a.length + 2) = e := by
            rw [hp]
            have h3 : a ++ '\r' :: '\n' :: e = (a ++ ['\r', '\n']) ++ e := by simp
            have h4 : (a ++ ['\r', '\n']).length = a.length + 2 := by simp
            rw [h3, ← h4, List.drop_left]
          rw [hdrop]
          have h5 : a.length + 2 + d.length - (a.length + 2) = d.length := by omega
          rw [h5]
        refine ⟨e.take d.length, ?_, ?_⟩
        · simp only [decodeStep, hfind, hparse, if_neg hno0, if_neg hg1, if_pos hg2, hslice]
        · -- e.take d.length is a prefix of d
          have h6 : e.take d.length = (d ++ ['\r', '\n']).take (min d.length
              (p.length - a.length - 2)) := by
            rw [he_def, List.take_take]
          rcases le_or_lt d.length (p.length - a.length - 2) with h7 | h7
          · rw [h6, Nat.min_eq_left h7, List.take_append_eq_append_take,
              Nat.sub_self, List.take_zero, List.append_nil, List.take_of_length_le le_rfl]
          · have h8 : p.length - a.length - 2 - d.length = 0 := by omega
            rw [h6, Nat.min_eq_right (le_of_lt h7), List.take_append_eq_append_take, h8,
              List.take_zero, List.append_nil]
            exact List.take_prefix _ _

lemma encodeChunked_cons (d : List Char) (ds : List (List Char)) :
    encodeChunked (d :: ds) = encodeChunk d ++ encodeChunked ds := by
  simp [encodeChunked]

lemma encodeChunked_nil : encodeChunked [] = zeroTerm := by
  simp [encodeChunked]

lemma decodeRun_one (p acc out : List Char) (fin : Bool) (f : Nat)
    (hstep : decodeStep p acc = .done out fin) :
    decodeRun (f + 1) p acc = some (out, fin) := by
  simp only [decodeRun, hstep]

lemma decodeRun_enc (ds : List (List Char)) :
    ∀ acc fuel, (∀ d ∈ ds, d ≠ []) → ds.length < fuel →
      decodeRun fuel (encodeChunked ds) acc = some (acc ++ ds.flatten, true) := by
  induction ds with
  | nil =>
    intro acc fuel _ hf
    cases fuel with
    | zero => omega
    | succ f =>
      have h : encodeChunked [] = zeroTerm ++ [] := by
        simp [encodeChunked]
      rw [h, decodeRun_one _ _ _ _ f (decodeStep_zeroTerm [] acc)]
      simp
  | cons d ds ih =>
    intro acc fuel hne hf
    cases fuel with
    | zero => omega
    | succ f =>
      rw [encodeChunked_cons]
      simp only [decodeRun, decodeStep_chunk d _ acc (hne d (by simp))]
      rw [ih (acc ++ d) f (fun x hx => hne x (by simp [hx])) (by simp at hf; omega)]
      simp

lemma decodeRun_enc_strict (ds : List (List Char)) :
    ∀ p acc fuel, (∀ d ∈ ds, d ≠ []) → p <+: encodeChunked ds →
      p ≠ encodeChunked ds → p.length < fuel →
      ∃ q, decodeRun fuel p acc = some (acc ++ q, false) ∧ q <+: ds.flatten := by
  induction ds with
  | nil =>
    intro p acc fuel _ hp hpne hf
    rw [encodeChunked_nil] at hp hpne
    have hlen : p.length < 5 := by
      have hle := hp.length_le
      rcases eq_or_lt_of_le hle with h | h
      · exact absurd (hp.eq_of_length h) hpne
      · simpa [zeroTerm] using h
    have hpeq : p = zeroTerm.take p.length := List.prefix_iff_eq_take.mp hp
    cases fuel with
    | zero => omega
    | succ f =>
      have h5 : p.length = 0 ∨ p.length = 1 ∨ p.length = 2 ∨ p.length = 3 ∨ p.length = 4 := by
        omega
      rcases h5 with h | h | h | h | h
      · have hpv : p = [] := by rw [hpeq, h]; rfl
        subst hpv
        exact ⟨[], by rw [decodeRun_one [] acc acc false f rfl]; simp, by simp⟩
      · have hpv : p = ['0'] := by rw [hpeq, h]; rfl
        subst hpv
        exact ⟨[], by rw [decodeRun_one ['0'] acc acc false f rfl]; simp, by simp⟩
      · have hpv : p = ['0', '\r'] := by rw [hpeq, h]; rfl
        subst hpv
        exact ⟨[], by rw [decodeRun_one ['0', '\r'] acc acc false f rfl]; simp, by simp⟩
      · have hpv : p = ['0', '\r', '\n'] := by rw [hpeq, h]; rfl
        subst hpv
        refine ⟨[], ?_, by simp⟩
        rw [decodeRun_one ['0', '\r', '\n'] acc (acc ++ []) false f rfl]
      · have hpv : p = ['0', '\r', '\n', '\r'] := by rw [hpeq, h]; rfl
        subst hpv
        refine ⟨[], ?_, by simp⟩
        rw [decodeRun_one ['0', '\r', '\n', '\r'] acc (acc ++ []) false f rfl]
  | cons d ds ih =>
    intro p acc fuel hne hp hpne hf
    have hd : d ≠ [] := hne d (by simp)
    rw [encodeChunked_cons] at hp hpne
    have hEpos : 0 < (encodeChunk d).length := by
      rw [encodeChunk_len]
      omega
    rcases le_or_lt (encodeChunk d).length p.length with hcase | hcase
    · have hEp : encodeChunk d <+: p :=
        List.prefix_of_prefix_length_le (List.prefix_append _ _) hp hcase
      obtain ⟨p2, rfl⟩ := hEp
      have hp2 : p2 <+: encodeChunked ds := (List.prefix_append_right_inj (encodeChunk d)).mp hp
      have hp2ne : p2 ≠ encodeChunked ds := fun hcon => hpne (by rw [hcon])
      cases fuel with
      | zero => omega
      | succ f =>
        simp only [decodeRun, decodeStep_chunk d p2 acc hd]
        have hlp2 : p2.length < f := by
          rw [List.length_append] at hf
          omega
        obtain ⟨q, hrun, hq⟩ := ih p2 (acc ++ d) f (fun x hx => hne x (by simp [hx])) hp2
          hp2ne hlp2
        refine ⟨d ++ q, ?_, ?_⟩
        · rw [hrun]
          simp
        · simp only [List.flatten_cons]
          exact (List.prefix_append_right_inj d).mpr hq
    · have hppre : p <+: encodeChunk d :=
        List.prefix_of_prefix_length_le hp (List.prefix_append _ _) (le_of_lt hcase)
      obtain ⟨q, hstep, hq⟩ := decodeStep_of_enc_strict d p acc hd hppre hcase
      cases fuel with
      | zero => omega
      | succ f =>
        refine ⟨q, ?_, ?_⟩
        · rw [decodeRun_one _ _ _ _ f hstep]
        · simp only [List.flatten_cons]
          exact hq.trans (List.prefix_append _ _)

lemma len_le_encodeChunked (ds : List (List Char)) :
    ds.length ≤ (encodeChunked ds).length := by
  induction ds with
  | nil => simp [encodeChunked, zeroTerm]
  | cons d ds ih =>
    rw [encodeChunked_cons, List.length_append]
    have h := encodeChunk_len d
    simp only [List.length_cons]
    omega

/-- C6: chunked round-trip.  For every well-formed chunked body — the
encoding of a list of nonempty chunk payloads followed by the terminal
marker — `_decode_chunked` returns exactly the concatenation of the
payloads with `isFinal = true`; and on every strict prefix of such a body
it returns a prefix of that concatenation with `isFinal = false`. -/
theorem decode_chunked_roundtrip (ds : List (List Char)) (hne : ∀ d ∈ ds, d ≠ []) :
    decodeChunked (encodeChunked ds) = some (ds.flatten, true)
    ∧ ∀ p, p <+: encodeChunked ds → p ≠ encodeChunked ds →
        ∃ q, decodeChunked p = some (q, false) ∧ q <+: ds.flatten := by
  constructor
  · rw [decodeChunked, decodeRun_enc ds [] _ hne ?_]
    · simp
    · have := len_le_encodeChunked ds
      omega
  · intro p hp hpne
    obtain ⟨q, hrun, hq⟩ := decodeRun_enc_strict ds p [] (p.length + 1) hne hp hpne (by omega)
    refine ⟨q, ?_, hq⟩
    rw [decodeChunked, hrun]
    simp

/-- Concrete chunk list for the C6 witness. -/
def dsEx : List (List Char) := [['a'], ['b', 'c']]

/-- Witness for `decode_chunked_roundtrip` at a concrete two-chunk stream and
one of its strict prefixes. -/
theorem decode_chunked_roundtrip_witness :
    decodeChunked (encodeChunked dsEx) = some (dsEx.flatten, true)
    ∧ ∃ q, decodeChunked ((encodeChunked dsEx).take 7) = some (q, false)
        ∧ q <+: dsEx.flatten := by
  have h := decode_chunked_roundtrip dsEx (by decide)
  exact ⟨h.1, h.2 _ (List.take_prefix _ _) (by decide)⟩

/-! ## JSON values

Python `json.loads` output.  Arrays and objects carry explicit cons/nil
spines (`anil`/`acons`, `onil`/`ocons`) so that every recursion over parsed
values is structural.  A number is kept unnormalised as `jnum m e`, meaning
`m * 10 ^ e`; Python's `int`/`float` distinction and binary-float rounding
are not modelled (no code under study depends on them), but `1 == 1.0` is
honoured by comparing values (`numValEq`). -/

inductive JVal where
  | jnull : JVal
  | jbool : Bool → JVal
  | jnum : Int → Int → JVal
  | jstr : List Char → JVal
  | anil : JVal
  | acons : JVal → JVal → JVal
  | onil : JVal
  | ocons : List Char → JVal → JVal → JVal
deriving DecidableEq, Repr

/-- Value equality of two decimal mantissa/exponent pairs. -/
def numValEq (m1 e1 m2 e2 : Int) : Bool :=
  if e1 ≥ e2 then m1 * (10 : Int) ^ (e1 - e2).toNat = m2
  else m2 * (10 : Int) ^ (e2 - e1).toNat = m1

/-- Python `==` on the JSON values that can appear as parameter names or in
the `== 1` test: `True == 1` and `1 == 1.0` hold, `None`/strings compare
only to themselves, containers compare structurally (not needed here). -/
def pyEqJ : JVal → JVal → Bool
  | .jnull, .jnull => true
  | .jbool a, .jbool b => a = b
  | .jbool a, .jnum m e => numValEq (if a then 1 else 0) 0 m e
  | .jnum m e, .jbool b => numValEq m e (if b then 1 else 0) 0
  | .jnum m1 e1, .jnum m2 e2 => numValEq m1 e1 m2 e2
  | .jstr a, .jstr b => a = b
  | _, _ => false

/-- Python `x == 1` (`parse_toolcall_params` boolean tag). -/
def pyEqOne (x : JVal) : Bool := pyEqJ x (.jnum 1 0)

/-- Is this value a Python `list` (`type(x) == list`)? -/
def isArr : JVal → Bool
  | .anil => true
  | .acons _ _ => true
  | _ => false

/-- Python `len` of a list value (spine length). -/
def alen : JVal → Nat
  | .acons _ t => alen t + 1
  | _ => 0

/-- Python `x[i]` on a list value; `none` models `IndexError`/`TypeError`. -/
def aidx : JVal → Nat → Option JVal
  | .acons h _, 0 => some h
  | .acons _ t, n + 1 => aidx t n
  | _, _ => none

/-! ## Python `json.loads` (lenient mode)

A recursive-descent parser for the JSON grammar as accepted by
`json.loads(.., strict=False)`: standard values, objects, arrays, strings
with the usual escapes and — because of `strict=False` — raw control
characters (including newlines) inside strings; numbers follow the
`(-?(0|[1-9]\d*))(\.\d+)?([eE][-+]?\d+)?` scanner.  `NaN`/`Infinity`
literals are not modelled (never produced by the wire format under study).
Whole-input consumption is required, as `json.loads` raises `Extra data`
otherwise. -/

def jsonWs (c : Char) : Bool := c = ' ' ∨ c = '\t' ∨ c = '\n' ∨ c = '\r'

def skipJWs (s : List Char) : List Char := s.dropWhile jsonWs

def isDigitCh (c : Char) : Bool := '0' ≤ c ∧ c ≤ '9'

def digitsVal (l : List Char) : Nat :=
  l.foldl (fun a c => a * 10 + (c.toNat - '0'.toNat)) 0

/-- One short escape character after a backslash; `none` raises. -/
def escChar (e : Char) : Option Char :=
  if e = '"' then some '"'
  else if e = '\\' then some '\\'
  else if e = '/' then some '/'
  else if e = 'b' then some '\x08'
  else if e = 'f' then some '\x0c'
  else if e = 'n' then some '\n'
  else if e = 'r' then some '\r'
  else if e = 't' then some '\t'
  else none

/-- Parse a JSON string body after the opening quote; returns the decoded
characters and the remaining input after the closing quote.  Raw control
characters are accepted (`strict=False`).  Surrogate-pair combination is
not modelled (`Char.ofNat` is applied to each `\uXXXX` escape). -/
def parseJStr : List Char → Option (List Char × List Char)
  | [] => none
  | c :: rest =>
    if c = '"' then some ([], rest)
    else if c = '\\' then
      match rest with
      | [] => none
      | e :: r2 =>
        if e = 'u' then
          match r2 with
          | h1 :: h2 :: h3 :: h4 :: r3 =>
            if isHexDig h1 ∧ isHexDig h2 ∧ isHexDig h3 ∧ isHexDig h4 then
              match parseJStr r3 with
              | some (cs, r4) =>
                some (Char.ofNat (((hexVal h1 * 16 + hexVal h2) * 16 + hexVal h3) * 16
                  + hexVal h4) :: cs, r4)
              | none => none
            else none
          | _ => none
        else
          match escChar e with
          | some ec =>
            match parseJStr r2 with
            | some (cs, r3) => some (ec :: cs, r3)
            | none => none
          | none => none
    else
      match parseJStr rest with
      | some (cs, r2) => some (c :: cs, r2)
      | none => none

/-- Parse the integer-part digits: `0` alone, or a nonzero digit followed by
any digits (the JSON number scanner's leading-zero rule). -/
def parseIntDigits : List Char → Option (Nat × List Char)
  | [] => none
  | c :: rest =>
    if c = '0' then some (0, rest)
    else if isDigitCh c then
      some (digitsVal (c :: rest.takeWhile isDigitCh), rest.dropWhile isDigitCh)
    else none

/-- Parse a JSON number starting at the current position. -/
def parseJNum (s : List Char) : Option (JVal × List Char) :=
  let (neg, s1) := match s with
    | '-' :: r => (true, r)
    | _ => (false, s)
  match parseIntDigits s1 with
  | none => none
  | some (ip, s2) =>
    let (fd, s3) := match s2 with
      | '.' :: d :: r =>
        if isDigitCh d then (d :: r.takeWhile isDigitCh, r.dropWhile isDigitCh)
        else ([], s2)
      | _ => ([], s2)
    let (ex, s4) : Int × List Char := match s3 with
      | c :: '+' :: d :: r =>
        if (c = 'e' ∨ c = 'E') ∧ isDigitCh d then
          ((digitsVal (d :: r.takeWhile isDigitCh) : Int), r.dropWhile isDigitCh)
        else (0, s3)
      | c :: '-' :: d :: r =>
        if (c = 'e' ∨ c = 'E') ∧ isDigitCh d then
          (-(digitsVal (d :: r.takeWhile isDigitCh) : Int), r.dropWhile isDigitCh)
        else (0, s3)
      | c :: d :: r =>
        if (c = 'e' ∨ c = 'E') ∧ isDigitCh d then
          ((digitsVal (d :: r.takeWhile isDigitCh) : Int), r.dropWhile isDigitCh)
        else (0, s3)
      | _ => (0, s3)
    let mant : Int := (ip : Int) * (10 : Int) ^ fd.length + (digitsVal fd : Int)
    some (.jnum (if neg then -mant else mant) (ex - fd.length), s4)

/-- Parsing modes: a value, the members of a nonempty array (element
`(',' element)* ']'`), or the members of a nonempty object. -/
inductive JMode where
  | val : JMode
  | arrMems : JMode
  | objMems : JMode

def jparse : Nat → JMode → List Char → Option (JVal × List Char)
  | 0, _, _ => none
  | fuel + 1, .val, s =>
    match s with
    | [] => none
    | c :: rest =>
      if c = '"' then
        match parseJStr rest with
        | some (cs, r) => some (.jstr cs, r)
        | none => none
      else if c = '\x7b' then
        match skipJWs rest with
        | '\x7d' :: r => some (.onil, r)
        | r1 => jparse fuel .objMems r1
      else if c = '[' then
        match skipJWs rest with
        | ']' :: r => some (.anil, r)
        | r1 => jparse fuel .arrMems r1
      else if c = 't' then
        match rest with
        | 'r' :: 'u' :: 'e' :: r => some (.jbool true, r)
        | _ => none
      else if c = 'f' then
        match rest with
        | 'a' :: 'l' :: 's' :: 'e' :: r => some (.jbool false, r)
        | _ => none
      else if c = 'n' then
        match rest with
        | 'u' :: 'l' :: 'l' :: r => some (.jnull, r)
        | _ => none
      else parseJNum s
  | fuel + 1, .arrMems, s =>
    match jparse fuel .val s with
    | none => none
    | some (v, s2) =>
      match skipJWs s2 with
      | ',' :: r =>
        match jparse fuel .arrMems (skipJWs r) with
        | some (tl, s3) => some (.acons v tl, s3)
        | none => none
      | ']' :: r => some (.acons v .anil, r)
      | _ => none
  | fuel + 1, .objMems, s =>
    match s with
    | '"' :: rest =>
      match parseJStr rest with
      | none => none
      | some (k, s2) =>
        match skipJWs s2 with
        | ':' :: r =>
          match jparse fuel .val (skipJWs r) with
          | none => none
          | some (v, s3) =>
            match skipJWs s3 with
            | ',' :: r2 =>
              match jparse fuel .objMems (skipJWs r2) with
              | some (tl, s4) => some (.ocons k v tl, s4)
              | none => none
            | '\x7d' :: r2 => some (.ocons k v .onil, r2)
            | _ => none
        | _ => none
    | _ => none

/-- Python `json.loads(s, strict=False)`; `none` models a raised
`JSONDecodeError`. -/
def jsonParse (s : List Char) : Option JVal :=
  match jparse (s.length + 1) .val (skipJWs s) with
  | some (v, rest) => if skipJWs rest = [] then some v else none
  | none => none

/-! ## The wire-fragment scanner

`parse_response` runs `re.finditer(rb'\[\[\[null,.*?],\"model\"]]', data)`.
The pattern is the literal `[[[null,` followed by a lazy gap that cannot
contain a newline (`.` without `DOTALL`), followed by the literal
`],"model"]]`.  `findMatches` reproduces `finditer`'s leftmost,
non-overlapping, shortest-gap semantics. -/

def openTok : List Char := "[[[null,".data

def closeTok : List Char := "],\"model\"]]".data

/-- Earliest gap length `j` such that the closing literal starts at `j` and
no newline occurs in the gap; the lazy `.*?` semantics. -/
def findCloseNoNL : List Char → Option Nat
  | [] => none
  | c :: cs =>
    if closeTok.isPrefixOf (c :: cs) then some 0
    else if c = '\n' then none
    else (findCloseNoNL cs).map Nat.succ

def findMatchesF : Nat → List Char → List (List Char)
  | 0, _ => []
  | fuel + 1, s =>
    match subFind openTok s with
    | none => []
    | some i =>
      match findCloseNoNL (s.drop (i + openTok.length)) with
      | some j =>
        (openTok ++ (s.drop (i + openTok.length)).take j ++ closeTok)
          :: findMatchesF fuel ((s.drop (i + openTok.length)).drop (j + closeTok.length))
      | none => findMatchesF fuel (s.drop (i + 1))

/-- All wire-fragment matches in a buffer, in order. -/
def findMatches (s : List Char) : List (List Char) := findMatchesF (s.length + 1) s

/-! ## `HttpInterceptor.parse_toolcall_params`

The parameter mapping built by `parse_toolcall_params`.  A Python dict is a
`pcons` spine of key/value entries (insertion-ordered, keys unique up to
Python `==`); parameter values are `pnull` (tag 1), a raw JSON value
(`praw`, tags 2 and 3), a boolean (`pbool`, tag 4), or a nested dict spine
(tag 5). -/

inductive PVal where
  | pnull : PVal
  | praw : JVal → PVal
  | pbool : Bool → PVal
  | pnil : PVal
  | pcons : JVal → PVal → PVal → PVal
deriving DecidableEq, Repr

/-- `func_params[k] = v`: overwrite the entry whose key is Python-equal to
`k`, else append; `none` models the `TypeError` raised for an unhashable
key (a list or dict). -/
def dictSet : PVal → JVal → PVal → Option PVal
  | .pnil, k, v =>
      match k with
      | .acons _ _ => none
      | .anil => none
      | .ocons _ _ _ => none
      | .onil => none
      | _ => some (.pcons k v .pnil)
  | .pcons k0 v0 rest, k, v =>
      if pyEqJ k0 k then some (.pcons k0 v rest)
      else
        match dictSet rest k v with
        | some r => some (.pcons k0 v0 r)
        | none => none
  | _, _, _ => none

/-- The body of `parse_toolcall_params`.  Mode `true` is a call to the
function itself: it takes `args[0]` as the list of `[name, value]` pairs
(`none` when `args` is not a nonempty list — `IndexError`/`TypeError`
propagate, since the function's own `except` clause re-raises).  Mode
`false` iterates that list with the accumulated dict: a pair whose value is
a list is decoded by its length tag (1 null, 2/3 raw value, 4 `== 1`
boolean, 5 nested call on index 4); a non-list value or an unknown tag
length contributes nothing; an element that is not an indexable pair
raises (`none`).  A string element of length ≥ 2 is silently skipped
(Python indexes its characters, and a one-character string is not a list);
shorter strings raise `IndexError`.  Dict or scalar elements raise. -/
def tcParamsRec : Bool → PVal → JVal → Option PVal
  | true, _, .acons p0 _ => tcParamsRec false .pnil p0
  | true, _, _ => none
  | false, acc, .anil => some acc
  | false, acc, .jstr [] => some acc
  | false, acc, .onil => some acc
  | false, acc, .ocons k _ rest =>
      match k with
      | _ :: _ :: _ => tcParamsRec false acc rest
      | _ => none
  | false, acc, .acons p rest =>
      match p with
      | .acons nm (.acons v _) =>
        (match v with
        | .acons _ .anil =>
            match dictSet acc nm .pnull with
            | some acc2 => tcParamsRec false acc2 rest
            | none => none
        | .acons _ (.acons x .anil) =>
            match dictSet acc nm (.praw x) with
            | some acc2 => tcParamsRec false acc2 rest
            | none => none
        | .acons _ (.acons _ (.acons x .anil)) =>
            match dictSet acc nm (.praw x) with
            | some acc2 => tcParamsRec false acc2 rest
            | none => none
        | .acons _ (.acons _ (.acons _ (.acons x .anil))) =>
            match dictSet acc nm (.pbool (pyEqOne x)) with
            | some acc2 => tcParamsRec false acc2 rest
            | none => none
        | .acons _ (.acons _ (.acons _ (.acons _ (.acons x .anil)))) =>
            match tcParamsRec true .pnil x with
            | some d =>
                match dictSet acc nm d with
                | some acc2 => tcParamsRec false acc2 rest
                | none => none
            | none => none
        | _ => tcParamsRec false acc rest)
      | .jstr (_ :: _ :: _) => tcParamsRec false acc rest
      | _ => none
  | false, _, _ => none

/-- `HttpInterceptor.parse_toolcall_params`. -/
def parseToolcallParams (args : JVal) : Option PVal := tcParamsRec true .pnil args

/-! ## `ParsedFrame` and the wire-fragment loop of `parse_response` -/

/-- The parameters stored in a frame's function entry: the decoded dict
from the wire path, or the raw JSON value taken from a fenced tool-call
block (`tc_data.get("arguments", \x7b\x7d)`). -/
inductive PyParams where
  | ofDict : PVal → PyParams
  | ofJson : JVal → PyParams
deriving DecidableEq, Repr

/-- One entry of `resp["function"]`: `{"name": .., "params": ..}`. -/
structure FuncEntry where
  name : JVal
  params : PyParams
deriving DecidableEq, Repr

/-- The `resp` dict built by `parse_response`, plus the `done` flag that
`process_response` adds. -/
structure Frame where
  reason : List Char
  body : List Char
  function : List FuncEntry
  done : Bool
deriving DecidableEq, Repr

def emptyFrame : Frame := ⟨[], [], [], false⟩

/-- `json_data[0][0]`; `none` models the exceptions caught at the
`payload` extraction (`continue`). -/
def payloadOf (j : JVal) : Option JVal :=
  match aidx j 0 with
  | some x => aidx x 0
  | none => none

/-- `type(o) == list` applied to an optional lookup result. -/
def optIsArr : Option JVal → Bool
  | some x => isArr x
  | none => false

/-- The classification of one successfully extracted payload
(`interceptors.py` lines 158–166).  `none` models an uncaught exception
(string concatenation with a non-string, indexing a too-short call array,
or a raise inside `parse_toolcall_params`), which aborts the whole
`parse_response` call. -/
def processPayload (resp : Frame) (payload : JVal) : Option Frame :=
  if alen payload = 2 then
    match aidx payload 1 with
    | some (.jstr s) => some { resp with body := resp.body ++ s }
    | _ => none
  else if alen payload = 11 ∧ aidx payload 1 = some JVal.jnull
      ∧ optIsArr (aidx payload 10) then
    match aidx payload 10 with
    | some calls =>
      match aidx calls 0, aidx calls 1 with
      | some nm, some args =>
        match parseToolcallParams args with
        | some ps => some { resp with function := resp.function ++ [⟨nm, .ofDict ps⟩] }
        | none => none
      | _, _ => none
    | none => none
  else if alen payload > 2 then
    match aidx payload 1 with
    | some (.jstr s) => some { resp with reason := resp.reason ++ s }
    | _ => none
  else some resp

/-- One iteration of the `for match in matches:` loop: a fragment whose
JSON fails to parse, or whose `[0][0]` extraction fails, is skipped
(`continue`); classification errors propagate.  A payload that is not a
list cannot arise from a text matched by the wire pattern (such a match
always parses to an array starting `[[[null,...`), and is modelled as an
error. -/
def processMatch (resp : Frame) (m : List Char) : Option Frame :=
  match jsonParse m with
  | none => some resp
  | some j =>
    match payloadOf j with
    | none => some resp
    | some payload =>
      if isArr payload then processPayload resp payload
      else none

def goMatches : Frame → List (List Char) → Option Frame
  | resp, [] => some resp
  | resp, m :: ms =>
    match processMatch resp m with
    | some r2 => goMatches r2 ms
    | none => none

/-- The wire-parsing part of `parse_response` (lines 115–166): scan for
fragments and fold the classification over them. -/
def parseWireFrame (text : List Char) : Option Frame :=
  goMatches emptyFrame (findMatches text)

/-! ## C3: classification of wire deltas -/

/-- Classification as worded by the specification (§4.3): length 2 is a
body delta appending `payload[1]`; length 11 with `payload[1] = null` and
`payload[10]` a list is a function-call delta built from
`payload[10] = [name, argsArray]`; any other length greater than 2 — not
the function shape — is a reasoning delta appending `payload[1]`.  Shorter
payloads contribute nothing.  The spec's "append `payload[1]` (string)"
presumes a string delta and the function shape presumes its two
components; other situations are errors, as in the code. -/
def specClassifyDelta (resp : Frame) (payload : JVal) : Option Frame :=
  if alen payload = 2 then
    match aidx payload 1 with
    | some (.jstr s) => some { resp with body := resp.body ++ s }
    | _ => none
  else if alen payload > 2 then
    if alen payload = 11 ∧ aidx payload 1 = some JVal.jnull ∧ optIsArr (aidx payload 10) then
      match aidx payload 10 with
      | some calls =>
        match aidx calls 0, aidx calls 1 with
        | some nm, some args =>
          match parseToolcallParams args with
          | some ps => some { resp with function := resp.function ++ [⟨nm, .ofDict ps⟩] }
          | none => none
        | _, _ => none
      | none => none
    else
      match aidx payload 1 with
      | some (.jstr s) => some { resp with reason := resp.reason ++ s }
      | _ => none
  else some resp

lemma processPayload_eq_spec (resp : Frame) (payload : JVal) :
    processPayload resp payload = specClassifyDelta resp payload := by
  by_cases h2 : alen payload = 2
  · simp [processPayload, specClassifyDelta, h2]
  · by_cases h11 : alen payload = 11 ∧ aidx payload 1 = some JVal.jnull
        ∧ optIsArr (aidx payload 10)
    · have hgt : alen payload > 2 := by omega
      simp [processPayload, specClassifyDelta, h2, h11, hgt]
    · by_cases hgt : alen payload > 2
      · simp [processPayload, specClassifyDelta, h2, h11, hgt]
      · simp [processPayload, specClassifyDelta, h2, h11, hgt]

/-- C3: for every wire fragment whose JSON parses and whose inner payload
`json_data[0][0]` is a list, the fragment's effect on the frame is exactly
the specification's length-based classification: length 2 appends
`payload[1]` to the body, length 11 with `payload[1] = null` and
`payload[10]` a list appends a function call built from
`payload[10] = [name, argsArray]`, and any other length greater than 2
appends `payload[1]` to the reasoning accumulator. -/
theorem wire_payload_classification (resp : Frame) (m : List Char) (j payload : JVal)
    (hparse : jsonParse m = some j) (hpay : payloadOf j = some payload)
    (harr : isArr payload = true) :
    processMatch resp m = specClassifyDelta resp payload := by
  simp only [processMatch, hparse, hpay, harr, if_true]
  exact processPayload_eq_spec resp payload

/-- Witness for `wire_payload_classification` at a concrete body-delta
fragment. -/
theorem wire_payload_classification_witness :
    processMatch emptyFrame "[[[null,\"hi\"],\"model\"]]".data
      = specClassifyDelta emptyFrame (.acons .jnull (.acons (.jstr "hi".data) .anil)) :=
  wire_payload_classification emptyFrame "[[[null,\"hi\"],\"model\"]]".data
    (.acons (.acons (.acons .jnull (.acons (.jstr "hi".data) .anil))
      (.acons (.jstr "model".data) .anil)) .anil)
    (.acons .jnull (.acons (.jstr "hi".data) .anil))
    (by decide) (by decide) (by decide)

/-! ## C4: malformed fragments are skipped -/

lemma goMatches_append (r : Frame) (xs ys : List (List Char)) :
    goMatches r (xs ++ ys)
      = match goMatches r xs with
        | some r2 => goMatches r2 ys
        | none => none := by
  induction xs generalizing r with
  | nil => rfl
  | cons m ms ih =>
    rw [List.cons_append]
    simp only [goMatches]
    cases hm : processMatch r m with
    | none => rfl
    | some r2 => exact ih r2

lemma processMatch_skip (r : Frame) (m : List Char) (hbad : jsonParse m = none) :
    processMatch r m = some r := by
  simp [processMatch, hbad]

/-- C4: when the fragment list of a buffer contains a malformed fragment —
one whose matched text fails JSON parsing — that fragment is skipped
without aborting the batch: the resulting frame is the one obtained by
folding the classification over the remaining fragments, so a valid
fragment in the same buffer still contributes its delta. -/
theorem wire_malformed_skipped (data m : List Char) (pre post : List (List Char))
    (hsplit : findMatches data = pre ++ m :: post) (hbad : jsonParse m = none) :
    parseWireFrame data = goMatches emptyFrame (pre ++ post) := by
  rw [parseWireFrame, hsplit, goMatches_append, goMatches_append]
  cases h : goMatches emptyFrame pre with
  | none => rfl
  | some r2 => simp only [goMatches, processMatch_skip r2 m hbad]

/-- Witness for `wire_malformed_skipped`: a buffer holding a malformed
fragment followed by a valid one still yields the valid fragment's body
delta. -/
theorem wire_malformed_skipped_witness :
    parseWireFrame ("[[[null,\x7bq],\"model\"]][[[null,\"hi\"],\"model\"]]").data
      = goMatches emptyFrame ["[[[null,\"hi\"],\"model\"]]".data]
    ∧ goMatches emptyFrame ["[[[null,\"hi\"],\"model\"]]".data]
      = some { emptyFrame with body := "hi".data } := by
  constructor
  · exact wire_malformed_skipped ("[[[null,\x7bq],\"model\"]][[[null,\"hi\"],\"model\"]]").data
      ("[[[null,\x7bq],\"model\"]]").data [] ["[[[null,\"hi\"],\"model\"]]".data]
      (by decide) (by decide)
  · decide

/-! ## C9: the shape of the parameter decoding -/

/-- Decoding a value **itself** as the list of `[paramName, paramValue]`
pairs, as claim C9 words it ("decoding argsArray as a list of pairs"):
each pair's value-list length encodes the type (1 null, 2 number at index
1, 3 string at index 2, 4 boolean `value[3] == 1`, 5 nested object decoded
from index 4 by the same recursive rule, other tag lengths omitted). -/
def specPairsDecode : PVal → JVal → Option PVal
  | acc, .anil => some acc
  | acc, .jstr [] => some acc
  | acc, .onil => some acc
  | acc, .ocons k _ rest =>
      match k with
      | _ :: _ :: _ => specPairsDecode acc rest
      | _ => none
  | acc, .acons p rest =>
      match p with
      | .acons nm (.acons v _) =>
        (match v with
        | .acons _ .anil =>
            match dictSet acc nm .pnull with
            | some acc2 => specPairsDecode acc2 rest
            | none => none
        | .acons _ (.acons x .anil) =>
            match dictSet acc nm (.praw x) with
            | some acc2 => specPairsDecode acc2 rest
            | none => none
        | .acons _ (.acons _ (.acons x .anil)) =>
            match dictSet acc nm (.praw x) with
            | some acc2 => specPairsDecode acc2 rest
            | none => none
        | .acons _ (.acons _ (.acons _ (.acons x .anil))) =>
            match dictSet acc nm (.pbool (pyEqOne x)) with
            | some acc2 => specPairsDecode acc2 rest
            | none => none
        | .acons _ (.acons _ (.acons _ (.acons _ (.acons x .anil)))) =>
            match specPairsDecode .pnil x with
            | some d =>
                match dictSet acc nm d with
                | some acc2 => specPairsDecode acc2 rest
                | none => none
            | none => none
        | _ => specPairsDecode acc rest)
      | .jstr (_ :: _ :: _) => specPairsDecode acc rest
      | _ => none
  | _, _ => none

/-- Claim C9 as stated: the mapping of a function-call delta is obtained by
decoding `argsArray` as the list of pairs. -/
def specArgsDecode (args : JVal) : Option PVal := specPairsDecode .pnil args

/-- A concrete `argsArray` of the real wire shape: `[[["x", [null]]]]`,
whose single pair list `[["x", [null]]]` sits in `argsArray[0]`. -/
def exToolArgs : JVal :=
  .acons (.acons (.acons (.jstr "x".data) (.acons (.acons .jnull .anil) .anil)) .anil) .anil

/-- Counterexample to C9 as stated: on `[[["x", [null]]]]` the code decodes
`argsArray[0]` as the pair list and yields the mapping `{"x": None}`,
while decoding `argsArray` itself as a list of pairs (the claim's reading)
raises, because the sole element `[["x", [null]]]` has no second component
to serve as a parameter value.  The two decodings differ. -/
theorem toolcall_params_cex :
    parseToolcallParams exToolArgs = some (.pcons (.jstr "x".data) .pnull .pnil)
    ∧ specArgsDecode exToolArgs = none
    ∧ parseToolcallParams exToolArgs ≠ specArgsDecode exToolArgs := by
  refine ⟨by decide, by decide, by decide⟩

/-- The amended decoding rule: the pair list is the **first element** of
`argsArray`, and a length-5 nested object is likewise decoded from the
first element of `value[4]`. -/
def specPairsAm : PVal → JVal → Option PVal
  | acc, .anil => some acc
  | acc, .jstr [] => some acc
  | acc, .onil => some acc
  | acc, .ocons k _ rest =>
      match k with
      | _ :: _ :: _ => specPairsAm acc rest
      | _ => none
  | acc, .acons p rest =>
      match p with
      | .acons nm (.acons v _) =>
        (match v with
        | .acons _ .anil =>
            match dictSet acc nm .pnull with
            | some acc2 => specPairsAm acc2 rest
            | none => none
        | .acons _ (.acons x .anil) =>
            match dictSet acc nm (.praw x) with
            | some acc2 => specPairsAm acc2 rest
            | none => none
        | .acons _ (.acons _ (.acons x .anil)) =>
            match dictSet acc nm (.praw x) with
            | some acc2 => specPairsAm acc2 rest
            | none => none
        | .acons _ (.acons _ (.acons _ (.acons x .anil))) =>
            match dictSet acc nm (.pbool (pyEqOne x)) with
            | some acc2 => specPairsAm acc2 rest
            | none => none
        | .acons _ (.acons _ (.acons _ (.acons _ (.acons x .anil)))) =>
            (match x with
            | .acons x0 _ =>
              match specPairsAm .pnil x0 with
              | some d =>
                  match dictSet acc nm d with
                  | some acc2 => specPairsAm acc2 rest
                  | none => none
              | none => none
            | _ => none)
        | _ => specPairsAm acc rest)
      | .jstr (_ :: _ :: _) => specPairsAm acc rest
      | _ => none
  | _, _ => none

/-- The amended claim C9: the mapping is obtained by decoding the first
element of `argsArray` as the list of pairs (error when `argsArray` is not
a nonempty list). -/
def specArgsAm (args : JVal) : Option PVal :=
  match args with
  | .acons p0 _ => specPairsAm .pnil p0
  | _ => none

lemma tcParamsRec_eq_am (b : Bool) (acc : PVal) (x : JVal) :
    tcParamsRec b acc x = (if b then specArgsAm x else specPairsAm acc x) := by
  induction b, acc, x using tcParamsRec.induct <;>
    try simp_all [tcParamsRec, specArgsAm, specPairsAm]
  case case16 =>
    rename_i hm hd ih2 ih1
    split at hm <;> simp_all [specPairsAm]
  case case17 =>
    rename_i hm hd ih
    split at hm <;> simp_all [specPairsAm]
  case case18 =>
    rename_i hm htc
    split at hm <;> simp_all [specPairsAm]

/-- C9 (amended): for every `argsArray`, the parameter mapping built by
`parse_toolcall_params` is the one obtained by decoding the **first
element** of `argsArray` as a list of `[paramName, paramValue]` pairs with
the length-tag rules (1 null, 2 number at index 1, 3 string at index 2, 4
boolean `value[3] == 1`, 5 nested object decoded from the first element of
`value[4]` by the same rule, other tag lengths omitted). -/
theorem toolcall_params_amended (args : JVal) :
    parseToolcallParams args = specArgsAm args := by
  rw [parseToolcallParams, tcParamsRec_eq_am]
  rfl

/-! ## The pseudo-function-call interceptor (ToolCallBuffer)

Lines 182–323 of `interceptors.py`: the detect/buffer/keepalive state
machine run on each extracted body delta.  Timestamps are integer
milliseconds; the source's `2.0`-second timeout and `0.5`-second keepalive
interval become `2000` and `500`.  Within one call the source reads
`time.time()` twice (capture start and elapsed check); the model uses a
single per-call instant `now`, which cannot change any branch because a
capture started in the same call has elapsed time `0` either way. -/

/-- `self._buffer_start_marker`. -/
def startMarker : List Char := "```json".data

/-- The keepalive filler text sent every half second while capturing. -/
def keepaliveText : List Char := "[正在调用工具...]\n".data

/-- The suffixes tested by `endswith` for a possibly split marker. -/
def partialMarkerSuffixes : List (List Char) :=
  ["`".data, "``".data, "```".data, "```j".data, "```js".data, "```jso".data]

def endsWithAny (s : List Char) (suffixes : List (List Char)) : Bool :=
  suffixes.any (fun suf => suf.isSuffixOf s)

/-- Python `s.replace(pat, "")` for nonempty `pat`: remove non-overlapping
occurrences left to right.  (The empty-pattern behaviour of Python is not
modelled; the pattern used is always a nonempty regex match.) -/
def replaceAllF : Nat → List Char → List Char → List Char
  | 0, _, s => s
  | _, _, [] => []
  | f + 1, pat, c :: cs =>
      if pat.isPrefixOf (c :: cs) ∧ pat ≠ [] then replaceAllF f pat ((c :: cs).drop pat.length)
      else c :: replaceAllF f pat cs

def replaceAll (s pat : List Char) : List Char := replaceAllF s.length pat s

/-! ### The tool-call regex

`re.search(r'```json\s*(\{.*?"tool_call":.*?\})\s*```', buf, re.DOTALL)`.
The overall match is at the leftmost feasible start; there the greedy
`\s*` runs are forced (their successors `\{` and `` ``` `` are not
whitespace), the group starts at the first `{` after the marker, and the
lazy quantifiers select the first `"tool_call":` occurrence and then the
first following `}` whose trailing whitespace run is followed by
`` ``` ``. -/

def tcCallKey : List Char := "tool_call".data

def tcKey : List Char := "\"tool_call\":".data

def fence3 : List Char := "```".data

def nameKey : List Char := "name".data

def argsKey : List Char := "arguments".data

def wsCount (s : List Char) : Nat := (s.takeWhile isPySpace).length

/-- After a candidate closing `}`: the whitespace run must be followed by
three backticks; returns the number of characters consumed after the
brace. -/
def closeAfterBrace (s : List Char) : Option Nat :=
  if fence3.isPrefixOf (s.drop (wsCount s)) then some (wsCount s + 3) else none

/-- First index of a `}` whose tail passes `closeAfterBrace`, with the
consumed tail length. -/
def findBraceClose : List Char → Option (Nat × Nat)
  | [] => none
  | c :: cs =>
      if c = '\x7d' then
        match closeAfterBrace cs with
        | some k => some (0, k)
        | none => (findBraceClose cs).map (fun p => (p.1 + 1, p.2))
      else (findBraceClose cs).map (fun p => (p.1 + 1, p.2))

/-- Inside a candidate body that starts at the `{`: find the group and the
total consumed length (group, then trailing whitespace and fence).
Returns `(groupLength, totalLength)`. -/
def tcSearchInBody (body : List Char) : Option (Nat × Nat) :=
  match subFind tcKey body with
  | none => none
  | some a =>
    match findBraceClose (body.drop (a + 12)) with
    | some (boff, k) => some (a + 12 + boff + 1, a + 12 + boff + 1 + k)
    | none => none

/-- Leftmost match: try each `` ```json `` occurrence in turn; at each, the
whitespace run must be followed by `{` and the body must complete,
otherwise the engine moves past that occurrence. -/
def tcSearchF : Nat → List Char → Option (List Char × List Char)
  | 0, _ => none
  | fuel + 1, s =>
    match subFind startMarker s with
    | none => none
    | some i =>
      match (s.drop (i + 7)).drop (wsCount (s.drop (i + 7))) with
      | '\x7b' :: _ =>
        match tcSearchInBody ((s.drop (i + 7)).drop (wsCount (s.drop (i + 7)))) with
        | some (glen, tlen) =>
            some (startMarker ++ (s.drop (i + 7)).take (wsCount (s.drop (i + 7)))
                ++ ((s.drop (i + 7)).drop (wsCount (s.drop (i + 7)))).take tlen,
              ((s.drop (i + 7)).drop (wsCount (s.drop (i + 7)))).take glen)
        | none => tcSearchF fuel (s.drop (i + 1))
      | _ => tcSearchF fuel (s.drop (i + 1))

/-- `re.search` of the tool-call pattern: `some (group0, group1)` — the
whole matched text and the braced JSON group. -/
def tcSearch (s : List Char) : Option (List Char × List Char) :=
  tcSearchF (s.length + 1) s

/-! ### JSON-object access used on the parsed tool payload -/

/-- Python `d[key]`-style lookup on a parsed JSON object; duplicate keys
follow dict semantics (the last occurrence wins). -/
def olookup : JVal → List Char → Option JVal
  | .ocons k v rest, key =>
    match olookup rest key with
    | some r => some r
    | none => if k = key then some v else none
  | _, _ => none

/-- Python `key in x` for a parsed JSON value: key lookup on a dict,
membership on a list, substring test on a string; `none` is the
`TypeError` for non-containers. -/
def arrAnyEq : JVal → JVal → Bool
  | .acons h t, x => pyEqJ h x ∨ arrAnyEq t x
  | _, _ => false

def pyContainsKey (j : JVal) (key : List Char) : Option Bool :=
  match j with
  | .onil => some false
  | .ocons _ _ _ => some (olookup j key).isSome
  | .anil => some false
  | .acons _ _ => some (arrAnyEq j (.jstr key))
  | .jstr s => some (containsSub key s)
  | _ => none

/-- Python truthiness of a parsed JSON value (`if func_name:`). -/
def pyTruthy : JVal → Bool
  | .jnull => false
  | .jbool b => b
  | .jnum m _ => m ≠ 0
  | .jstr s => s ≠ []
  | .anil => false
  | .acons _ _ => true
  | .onil => false
  | .ocons _ _ _ => true

/-- The buffering state of the interceptor: `_tool_call_buffer`,
`_is_buffering`, `_buffer_start_time` (0 stands for Python's `None`, which
is only ever read while buffering), `_keepalive_count`. -/
structure BufState where
  buffer : List Char
  buffering : Bool
  startTime : Int
  keepalive : Nat
deriving DecidableEq, Repr

def initBufState : BufState := ⟨[], false, 0, 0⟩

/-- Lines 230–245: extract the function entry from the parsed fenced
payload.  `none` models an uncaught exception: `"tool_call" in x` on a
non-container, subscripting a list/string with a string key, or calling
`.get` on a non-dict `tool_call` value.  An absent or falsy name silently
appends nothing. -/
def tcExtract (funcs : List FuncEntry) (pl : JVal) : Option (List FuncEntry) :=
  match pyContainsKey pl tcCallKey with
  | none => none
  | some false => some funcs
  | some true =>
    match pl with
    | .ocons _ _ _ =>
      match olookup pl tcCallKey with
      | some tc =>
        (match tc with
         | .ocons _ _ _ =>
            if pyTruthy ((olookup tc nameKey).getD .jnull) then
              some (funcs ++ [⟨(olookup tc nameKey).getD .jnull,
                .ofJson ((olookup tc argsKey).getD .onil)⟩])
            else some funcs
         | .onil => some funcs
         | _ => none)
      | none => none
    | _ => none

/-- Lines 215–277: the capturing branch.  `buffer` is the buffer after the
new delta has been appended, `t0` the capture start, `ka` the keepalive
count. -/
def toolCallB (resp : Frame) (now : Int) (buffer : List Char) (t0 : Int) (ka : Nat) :
    Option (Frame × BufState) :=
  if now - t0 > 2000 then
    some ({resp with body := buffer}, initBufState)
  else
    match tcSearch buffer with
    | some (m0, g) =>
      (match jsonParse g with
       | some pl =>
         (match tcExtract resp.function pl with
          | some funcs =>
            some ({resp with
                function := funcs
                body := (if stripWs (replaceAll buffer m0) ≠ [] then replaceAll buffer m0
                  else [])},
              initBufState)
          | none => none)
       | none =>
         -- incomplete JSON inside the fence: keep buffering, keepalive check
         if now - t0 > ((ka : Int) + 1) * 500 then
           some ({resp with body := keepaliveText}, ⟨buffer, true, t0, ka + 1⟩)
         else some ({resp with body := []}, ⟨buffer, true, t0, ka⟩))
    | none =>
      if now - t0 > ((ka : Int) + 1) * 500 then
        some ({resp with body := keepaliveText}, ⟨buffer, true, t0, ka + 1⟩)
      else some ({resp with body := []}, ⟨buffer, true, t0, ka⟩)

/-- Lines 182–323: one call of the buffering machinery on the extracted
frame.  The source first runs the marker-detection block (only when not
buffering), which either returns early (nonempty prose before the marker)
or falls through into the capturing branch; when already buffering the
detection block is skipped.  An empty extracted body skips everything. -/
def toolCallStep (resp : Frame) (now : Int) (st : BufState) : Option (Frame × BufState) :=
  if resp.body = [] then some (resp, st)
  else
    if st.buffering then toolCallB resp now (st.buffer ++ resp.body) st.startTime st.keepalive
    else
      match subFind startMarker (st.buffer ++ resp.body) with
      | some idx =>
        if stripWs ((st.buffer ++ resp.body).take idx) ≠ [] then
          some ({resp with body := (st.buffer ++ resp.body).take idx},
            ⟨(st.buffer ++ resp.body).drop idx, true, now, 0⟩)
        else
          toolCallB resp now ((st.buffer ++ resp.body).drop idx) now 0
      | none =>
        if endsWithAny (st.buffer ++ resp.body) partialMarkerSuffixes
            ∧ (st.buffer ++ resp.body).length ≤ 10 then
          some ({resp with body := []}, {st with buffer := st.buffer ++ resp.body})
        else
          some ({resp with body := st.buffer ++ resp.body}, {st with buffer := []})

/-- `HttpInterceptor.parse_response`: wire parsing followed by the
buffering machinery. -/
def parseResponse (data : List Char) (now : Int) (st : BufState) :
    Option (Frame × BufState) :=
  match parseWireFrame data with
  | some resp => toolCallStep resp now st
  | none => none

/-- Feed a stream of body deltas (with their arrival instants) through
successive `toolCallStep` calls, collecting the produced frames. -/
def runBodies : List (List Char × Int) → BufState → Option (List Frame × BufState)
  | [], st => some ([], st)
  | (b, t) :: rest, st =>
    match toolCallStep ⟨[], b, [], false⟩ t st with
    | some (f, st2) =>
      match runBodies rest st2 with
      | some (fs, se) => some (f :: fs, se)
      | none => none
    | none => none

/-! ## C2: the 2-second timeout check -/

/-- Counterexample to C2 as stated: while the interceptor is capturing
(`_is_buffering = true` with capture start `0`), a `parse_response` call
whose extracted body delta is empty — here, input data with no wire
fragments at all — skips the entire buffering block (`if resp["body"]:`),
so even 100 seconds past the 2-second timeout nothing is emitted, the
buffer is not flushed, and the state remains Capturing, contradicting
"every call to parse_response first checks the elapsed time ... the
entire buffered text is emitted ... and the state returns to
Passthrough". -/
theorem buffering_timeout_cex :
    parseResponse [] 100000 ⟨"```json\x7b".data, true, 0, 0⟩
      = some (emptyFrame, ⟨"```json\x7b".data, true, 0, 0⟩)
    ∧ ((100000 : Int) - 0 > 2000) := by
  refine ⟨by decide, by decide⟩

/-- C2 (amended): every `parse_response` call that carries a **nonempty**
extracted body delta while in Capturing state first checks the elapsed
time since capture start against the 2.0-second timeout; when it has been
exceeded, the entire buffered text (including the delta just appended) is
emitted verbatim as the body output of that call — regardless of the
buffer's contents, even if a complete fenced block is present — and the
state returns to Passthrough with an empty buffer, so the flush happens
exactly once. -/
theorem buffering_timeout_amended (resp : Frame) (now : Int) (st : BufState)
    (hbuf : st.buffering = true) (hbody : resp.body ≠ [])
    (htime : now - st.startTime > 2000) :
    toolCallStep resp now st
      = some ({resp with body := st.buffer ++ resp.body}, initBufState) := by
  simp only [toolCallStep, if_neg hbody, hbuf, if_true, toolCallB, if_pos htime]

/-- Witness for `buffering_timeout_amended`. -/
theorem buffering_timeout_amended_witness :
    toolCallStep ⟨[], "x".data, [], false⟩ 3000 ⟨"```json".data, true, 0, 0⟩
      = some ({ (⟨[], "x".data, [], false⟩ : Frame) with
          body := "```json".data ++ "x".data }, initBufState) :=
  buffering_timeout_amended ⟨[], "x".data, [], false⟩ 3000 ⟨"```json".data, true, 0, 0⟩
    rfl (by decide) (by decide)

/-! ## C1: marker leakage -/

def cexChunk1 : List Char := "```json\n\x7b\"tool_call\": \x7b\"name\": \"f\",".data

def cexChunk2 : List Char := " \"arguments\": \x7b\x7d\x7d\x7d\n```".data

def cexGroup : List Char :=
  "\x7b\"tool_call\": \x7b\"name\": \"f\", \"arguments\": \x7b\x7d\x7d\x7d".data

/-- Counterexample to C1 as stated: the two-chunk body-delta stream
`cexChunk1`, `cexChunk2` concatenates to a complete, valid fenced
tool-call block (first two conjuncts: the tool-call regex matches the
whole text and its group parses to an object with a `tool_call` key).
Yet when the second chunk arrives 10 seconds after the first, the timeout
branch emits the **entire raw buffer** as body text: the second frame's
body is the whole raw block, containing the opening fence token and the
raw tool-call JSON, and no `FunctionCall` entry is ever produced.  C1
quantifies over all chunkings and arrival times, so this refutes it. -/
theorem no_marker_leakage_cex :
    tcSearch (cexChunk1 ++ cexChunk2) = some (cexChunk1 ++ cexChunk2, cexGroup)
    ∧ (jsonParse cexGroup).map (fun pl => pyContainsKey pl tcCallKey) = some (some true)
    ∧ runBodies [(cexChunk1, 0), (cexChunk2, 10000)] initBufState
        = some ([⟨[], [], [], false⟩, ⟨[], cexChunk1 ++ cexChunk2, [], false⟩], initBufState)
    ∧ containsSub startMarker (cexChunk1 ++ cexChunk2) = true
    ∧ containsSub cexGroup (cexChunk1 ++ cexChunk2) = true := by
  refine ⟨by decide, by decide, by decide, by decide, by decide⟩

lemma subFind_none_of_missing (pat s : List Char) (x : Char) (hx : x ∈ pat) (hs : x ∉ s) :
    subFind pat s = none := by
  induction s with
  | nil =>
    cases hp : pat.isPrefixOf ([] : List Char) with
    | false => simp [subFind, hp]
    | true =>
      have h1 := List.isPrefixOf_iff_prefix.mp hp
      rw [List.prefix_nil] at h1
      subst h1
      simp at hx
  | cons c cs ih =>
    cases hp : pat.isPrefixOf (c :: cs) with
    | false =>
      simp only [subFind, hp, Bool.false_eq_true, if_false]
      rw [ih (fun hmem => hs (by simp [hmem]))]
      rfl
    | true =>
      exact absurd ((List.isPrefixOf_iff_prefix.mp hp).subset hx) hs

lemma not_suffixOf_of_missing (suf c : List Char) (x : Char) (hx : x ∈ suf) (hc : x ∉ c) :
    suf.isSuffixOf c = false := by
  cases hs : suf.isSuffixOf c with
  | false => rfl
  | true =>
    exact absurd ((List.isSuffixOf_iff_suffix.mp hs).subset hx) hc

/-- A backtick-free nonempty delta in the initial state flows straight
through: the full buffer is emitted and the state is unchanged. -/
lemma prose_step (c : List Char) (t : Int) (hb : '\x60' ∉ c) :
    toolCallStep ⟨[], c, [], false⟩ t initBufState
      = some (⟨[], c, [], false⟩, initBufState) := by
  by_cases hc : c = []
  · subst hc
    rfl
  · have hfind : subFind startMarker c = none :=
      subFind_none_of_missing startMarker c '\x60' (by decide) hb
    have h6 : ∀ suf ∈ partialMarkerSuffixes, suf.isSuffixOf c = false := by
      intro suf hsuf
      refine not_suffixOf_of_missing suf c '\x60' ?_ hb
      fin_cases hsuf <;> decide
    have hsuffix : endsWithAny c partialMarkerSuffixes = false := by
      simp only [endsWithAny, List.any_eq_false]
      intro suf hsuf
      simp [h6 suf hsuf]
    simp [toolCallStep, hc, initBufState, hfind, hsuffix]

lemma replaceAllF_nil (f : Nat) (pat : List Char) : replaceAllF f pat [] = [] := by
  cases f <;> rfl

lemma replaceAll_self (s : List Char) (hs : s ≠ []) : replaceAll s s = [] := by
  cases s with
  | nil => exact absurd rfl hs
  | cons c cs =>
    have h1 : (c :: cs).drop (c :: cs).length = [] := by simp
    simp only [replaceAll, List.length_cons, replaceAllF, h1, replaceAllF_nil,
      if_pos (And.intro (List.isPrefixOf_iff_prefix.mpr (List.prefix_refl _))
        (List.cons_ne_nil c cs))]
    have h2 : (c :: cs).drop (cs.length + 1) = [] := by simp
    rw [h2, replaceAllF_nil]

/-- A delta that is exactly a complete fenced block — the regex matches
the whole delta, its group parses, and the payload carries a truthy
`tool_call.name` — is consumed in a single call: the body output is empty
and the function call is delivered. -/
lemma block_step (blk g : List Char) (t : Int) (pl tc nm : JVal)
    (h0 : subFind startMarker blk = some 0)
    (hs : tcSearch blk = some (blk, g))
    (hj : jsonParse g = some pl)
    (hk : pyContainsKey pl tcCallKey = some true)
    (holo : olookup pl tcCallKey = some tc)
    (hnm : olookup tc nameKey = some nm)
    (htr : pyTruthy nm = true) :
    toolCallStep ⟨[], blk, [], false⟩ t initBufState
      = some (⟨[], [], [⟨nm, .ofJson ((olookup tc argsKey).getD .onil)⟩], false⟩,
        initBufState) := by
  have hne : blk ≠ [] := by
    intro h
    subst h
    simp [subFind, startMarker] at h0
  have hplobj : ∃ k v r, pl = .ocons k v r := by
    cases pl <;> simp [olookup] at holo
    exact ⟨_, _, _, rfl⟩
  have htcobj : ∃ k v r, tc = .ocons k v r := by
    cases tc <;> simp [olookup] at hnm
    exact ⟨_, _, _, rfl⟩
  have hex : tcExtract [] pl = some [⟨nm, .ofJson ((olookup tc argsKey).getD .onil)⟩] := by
    obtain ⟨k, v, r, rfl⟩ := hplobj
    obtain ⟨k2, v2, r2, rfl⟩ := htcobj
    simp [tcExtract, hk, holo, hnm, htr]
  have hrepl : replaceAll blk blk = [] := replaceAll_self blk hne
  simp only [toolCallStep, if_neg hne, initBufState, Bool.false_eq_true, if_false,
    List.nil_append, h0, List.take_zero, List.drop_zero]
  rw [if_neg (by simp [stripWs])]
  simp only [toolCallB, sub_self, show ¬((0 : Int) > 2000) by decide, if_false, hs, hj, hex,
    hrepl]
  rw [if_neg (by simp [stripWs])]
  rfl

lemma runBodies_prose (l : List (List Char × Int)) (h : ∀ x ∈ l, '\x60' ∉ x.1) :
    runBodies l initBufState
      = some (l.map (fun x => (⟨[], x.1, [], false⟩ : Frame)), initBufState) := by
  induction l with
  | nil => rfl
  | cons x rest ih =>
    obtain ⟨b, t⟩ := x
    have hstep := prose_step b t (h (b, t) (by simp))
    have hrest := ih (fun y hy => h y (by simp [hy]))
    simp only [runBodies, hstep, hrest, List.map_cons]

/-- C1 (amended): whenever the interceptor starts in Passthrough state
and the body-delta sequence consists of backtick-free deltas around a
single delta that is one complete fenced tool-call block — the tool-call
regex matches the whole delta, its group parses to JSON carrying a truthy
`tool_call.name` — the emitted per-call body outputs are exactly the
backtick-free deltas, with an empty body and a delivered `FunctionCall`
(name and `arguments`) at the block's position, and no emitted body
contains a backtick; in particular no fence token, keepalive marker or
raw tool-call JSON ever reaches a body output.  (The unrestricted claim,
over all chunkings and timings, is refuted by `no_marker_leakage_cex`:
the 2-second timeout dump re-emits the raw buffer verbatim.) -/
theorem no_marker_leakage_amended
    (pre post : List (List Char × Int)) (blk g : List Char) (t : Int) (pl tc nm : JVal)
    (hpre : ∀ x ∈ pre, '\x60' ∉ x.1) (hpost : ∀ x ∈ post, '\x60' ∉ x.1)
    (h0 : subFind startMarker blk = some 0)
    (hs : tcSearch blk = some (blk, g))
    (hj : jsonParse g = some pl)
    (hk : pyContainsKey pl tcCallKey = some true)
    (holo : olookup pl tcCallKey = some tc)
    (hnm : olookup tc nameKey = some nm)
    (htr : pyTruthy nm = true) :
    runBodies (pre ++ (blk, t) :: post) initBufState
      = some (pre.map (fun x => (⟨[], x.1, [], false⟩ : Frame))
          ++ (⟨[], [], [⟨nm, .ofJson ((olookup tc argsKey).getD .onil)⟩], false⟩ : Frame)
            :: post.map (fun x => (⟨[], x.1, [], false⟩ : Frame)), initBufState)
    ∧ ∀ f ∈ pre.map (fun x => (⟨[], x.1, [], false⟩ : Frame))
          ++ (⟨[], [], [⟨nm, .ofJson ((olookup tc argsKey).getD .onil)⟩], false⟩ : Frame)
            :: post.map (fun x => (⟨[], x.1, [], false⟩ : Frame)),
        '\x60' ∉ f.body := by
  constructor
  · induction pre with
    | nil =>
      have hstep := block_step blk g t pl tc nm h0 hs hj hk holo hnm htr
      have hrest := runBodies_prose post hpost
      simp only [List.nil_append, runBodies, hstep, hrest, List.map_nil]
    | cons x rest ih =>
      obtain ⟨b, tb⟩ := x
      have hstep := prose_step b tb (hpre (b, tb) (by simp))
      have hrest := ih (fun y hy => hpre y (by simp [hy]))
      simp only [List.cons_append, runBodies, hstep, List.append_eq, hrest, List.map_cons]
  · intro f hf
    rcases List.mem_append.mp hf with hf1 | hf2
    · obtain ⟨x, hx, rfl⟩ := List.mem_map.mp hf1
      exact hpre x hx
    · rcases List.mem_cons.mp hf2 with rfl | hf3
      · simp
      · obtain ⟨x, hx, rfl⟩ := List.mem_map.mp hf3
        exact hpost x hx

def c1Block : List Char :=
  "```json\n\x7b\"tool_call\": \x7b\"name\": \"do\", \"arguments\": \x7b\"a\": 1\x7d\x7d\x7d\n```".data

def c1Group : List Char :=
  "\x7b\"tool_call\": \x7b\"name\": \"do\", \"arguments\": \x7b\"a\": 1\x7d\x7d\x7d".data

def c1Tc : JVal :=
  .ocons "name".data (.jstr "do".data)
    (.ocons "arguments".data (.ocons "a".data (.jnum 1 0) .onil) .onil)

def c1Payload : JVal := .ocons "tool_call".data c1Tc .onil

/-- Witness for `no_marker_leakage_amended`. -/
theorem no_marker_leakage_amended_witness :
    runBodies [("hi ".data, 0), (c1Block, 2), ("bye".data, 5000)] initBufState
      = some ([⟨[], "hi ".data, [], false⟩,
          ⟨[], [], [⟨.jstr "do".data, .ofJson (.ocons "a".data (.jnum 1 0) .onil)⟩], false⟩,
          ⟨[], "bye".data, [], false⟩], initBufState) := by
  have h := (no_marker_leakage_amended [("hi ".data, 0)] [("bye".data, 5000)]
    c1Block c1Group 2 c1Payload c1Tc (.jstr "do".data)
    (by decide) (by decide) (by decide) (by decide) (by decide) (by decide)
    (by decide) (by decide) (by decide)).1
  exact h.trans (by decide)

/-! ## The server-to-client relay loop (`_process_server_data`) -/

/-- `HttpInterceptor.process_response`: chunked-decode the accumulated
bytes, decompress (`dec` stands for `_decompress_zlib_stream`; `none`
models the zlib exception it lets escape on corrupt input), run
`parse_response`, set the `done` flag from the decoder, and reset the
buffering state once the response is complete.  Every exception is
re-raised (`raise e`), so any `none` propagates to the caller. -/
def processResponse (dec : List Char → Option (List Char)) (data : List Char)
    (now : Int) (st : BufState) : Option (Frame × BufState) :=
  match decodeChunked data with
  | none => none
  | some (decoded, isDone) =>
    match dec decoded with
    | none => none
    | some plain =>
      match parseResponse plain now st with
      | none => none
      | some (f, st2) =>
        some ({ f with done := isDone }, if isDone then initBufState else st2)

/-- The state carried across iterations of `_process_server_data`: the
accumulated `server_buffer` and the interceptor's buffering state. -/
structure RelayState where
  sbuf : List Char
  ist : BufState
deriving DecidableEq, Repr

/-- One iteration of the `while True` loop of `_process_server_data` on a
nonempty read `data`: extend `server_buffer`; when it contains a blank
line and sniffing is on, run `process_response` on the bytes after the
first blank line, inside a `try` whose handlers catch
`json.JSONDecodeError` and every other `Exception` and fall through (a
decode or decompression exception is raised before the interceptor state
is touched, so the handler leaves it unchanged); then, unconditionally,
`client_writer.write(data)`; finally clear the buffer once the
terminating `0\r\n\r\n` has been seen.  The second component is what the
iteration wrote to the client. -/
def serverDataStep (dec : List Char → Option (List Char)) (sniff : Bool)
    (now : Int) (st : RelayState) (data : List Char) :
    RelayState × List (List Char) :=
  let buf1 := st.sbuf ++ data
  let ist2 :=
    if sniff then
      match subFind crlf2 buf1 with
      | some idx =>
        match processResponse dec (buf1.drop (idx + 4)) now st.ist with
        | some (_, st2) => st2
        | none => st.ist
      | none => st.ist
    else st.ist
  let sbuf2 := if containsSub zeroTerm buf1 then [] else buf1
  (⟨sbuf2, ist2⟩, [data])

/-- The read loop: fold `serverDataStep` over the successive reads,
concatenating everything written to the client. -/
def serverLoop (dec : List Char → Option (List Char)) (sniff : Bool) :
    List (List Char × Int) → RelayState → RelayState × List (List Char)
  | [], st => (st, [])
  | (d, t) :: rest, st =>
    let p := serverDataStep dec sniff t st d
    let q := serverLoop dec sniff rest p.1
    (q.1, p.2 ++ q.2)

/-- C5: the relay is byte-transparent.  Whatever the decompressor does
(including failing on every input), whether sniffing is on or off, and
from any starting state, the concatenation of everything the
server-to-client loop writes is exactly the sequence of reads, unchanged
and in arrival order: the unconditional `client_writer.write(data)` sits
outside the `try` that guards the interception, so decode, decompression
and parsing outcomes never alter or suppress the relayed bytes. -/
theorem relay_transparent (dec : List Char → Option (List Char)) (sniff : Bool)
    (chunks : List (List Char × Int)) (st : RelayState) :
    (serverLoop dec sniff chunks st).2 = chunks.map Prod.fst := by
  induction chunks generalizing st with
  | nil => rfl
  | cons c rest ih =>
    obtain ⟨d, t⟩ := c
    simp [serverLoop, serverDataStep, ih]

/-- A decompressor that fails on every input, modelling
`_decompress_zlib_stream` applied to corrupt or truncated zlib data. -/
def failDec : List Char → Option (List Char) := fun _ => none

def c8Read1 : List Char := "HTTP/1.1 200 OK\r\n\r\n3\r\nabc\r\n".data

def c8Read2 : List Char := "3\r\ndef\r\n".data

/-- Counterexample to C8's teardown half: with `failDec` as the
decompressor, the exception does propagate out of `process_response`
(first conjunct: the chunked body decodes fine, so the failure is the
decompressor's), but the relay loop catches it and carries on: across two
reads both are still written to the client, the loop state survives to
process the second read, and the interceptor state is untouched — the
tunnel is not torn down. -/
theorem decompress_failure_cex :
    processResponse failDec "3\r\nabc\r\n".data 0 initBufState = none
    ∧ serverLoop failDec true [(c8Read1, 0), (c8Read2, 1)] ⟨[], initBufState⟩
        = (⟨c8Read1 ++ c8Read2, initBufState⟩, [c8Read1, c8Read2]) := by
  refine ⟨by decide, by decide⟩

/-- C8 (amended): when decompression of a response's accumulated bytes
fails on corrupt or truncated zlib data, the exception propagates out of
`process_response` — fatal for that response, no partial result (first
conjunct) — and the failure is logged; but the relay loop's blanket
`except Exception` handler then continues: the read is still relayed to
the client and the loop proceeds with the interceptor state unchanged.
The tunnel is NOT torn down (second conjunct). -/
theorem decompress_failure_amended
    (dec : List Char → Option (List Char)) (data decoded : List Char) (isDone : Bool)
    (now : Int) (st : BufState) (rst : RelayState) (rdata : List Char) (idx : Nat)
    (h1 : decodeChunked data = some (decoded, isDone))
    (h2 : dec decoded = none)
    (h4 : subFind crlf2 (rst.sbuf ++ rdata) = some idx)
    (h3 : processResponse dec ((rst.sbuf ++ rdata).drop (idx + 4)) now rst.ist = none) :
    processResponse dec data now st = none
    ∧ serverDataStep dec true now rst rdata
        = (⟨if containsSub zeroTerm (rst.sbuf ++ rdata) = true then []
            else rst.sbuf ++ rdata, rst.ist⟩, [rdata]) := by
  refine ⟨?_, ?_⟩
  · simp [processResponse, h1, h2]
  · simp [serverDataStep, h4, h3]

/-- Witness for `decompress_failure_amended`. -/
theorem decompress_failure_amended_witness :
    processResponse failDec "3\r\nabc\r\n".data 0 initBufState = none
    ∧ serverDataStep failDec true 0 ⟨[], initBufState⟩ c8Read1
        = (⟨if containsSub zeroTerm (([] : List Char) ++ c8Read1) = true then []
            else ([] : List Char) ++ c8Read1, initBufState⟩, [c8Read1]) :=
  decompress_failure_amended failDec "3\r\nabc\r\n".data "abc".data false 0 initBufState
    ⟨[], initBufState⟩ c8Read1 15 (by decide) (by decide) (by decide) (by decide)
